import Mathlib

/-!
Verification of the gloss-client Entry Reconstruction & Query Engine.

The definitions below are a shallow embedding of `GlossClient` (the day-key
variant, the file containing `parseLogEntry`/`normalizeLog`/`matchesTagFilter`),
plus the paging variant of `removeDay`/`listDay` from `src/GlossClient.ts`
(namespace `SrcV`).  External effects are made explicit:

* a store record's serialized `value` is modelled as `Option JVal`, the result
  of `JSON.parse` (`none` covers both an absent value and a parse failure, the
  two cases the code treats identically by skipping);
* the ambient clock and random key generator used only for defaulting missing
  fields are threaded as a `Gen` environment;
* `kv.set` / `kv.remove` outcomes are explicit parameters.

JS string comparison (`<`, `>`, and `localeCompare` on the ASCII keys used
here) is modelled by code-unit lexicographic comparison `jsStrLt`, and the
stable `Array.prototype.sort` by the stable insertion sort `jsSort`.
-/

namespace Gloss

/-- JSON values as produced by `JSON.parse`.  Objects are field lists; the
inputs considered always carry distinct field names. -/
inductive JVal where
  | null : JVal
  | bool (b : Bool) : JVal
  | num (n : Int) : JVal
  | str (s : String) : JVal
  | arr (elems : List JVal) : JVal
  | obj (fields : List (String × JVal)) : JVal

/-- Property access `parsed.name` on a parsed JSON value. -/
def JVal.getField : JVal → String → Option JVal
  | .obj fields, name => fields.lookup name
  | _, _ => none

/-- Canonical log entry (the `LogEntry` interface).  The `at` field is named
`at_` because `at` is reserved in Lean; a missing `at` string is represented
by `""`, matching the code's truthiness checks (`a.at ?? ''`). -/
structure LogEntry where
  key : String
  at_ : String
  text : String
  tags : Option (List String)
  assets : Option (List String)
  controller : Option String
  txid : Option String := none
deriving Repr, DecidableEq

/-- Ambient environment for the decode defaults: `nowIso` models
`new Date().toISOString()` and `freshKey` models the key produced by
`nextIdForDay` for a missing `key` field. -/
structure Gen where
  nowIso : String
  freshKey : String
deriving Repr, DecidableEq

/-- Query options of `listDay` (reconstructed from the use sites, the
`types.ts` module not being part of the sources). -/
structure QueryOptions where
  controller : Option String := none
  tags : Option (List String) := none
  tagQueryMode : Option String := none
  sortOrder : Option String := none
  skip : Option Int := none
  limit : Option Int := none
  includeTxid : Bool := false
deriving Repr, DecidableEq

/-- Options of `log` / `updateEntryByKey`. -/
structure CreateLogOptions where
  tags : Option (List String) := none
  assets : Option (List String) := none
deriving Repr, DecidableEq

/-- A physical record as returned by `GlobalKVStore.get`: current value,
declared controller, history of past serialized values (each again an
`Option JVal`: non-string or unparseable elements decode to nothing), and the
token txid. -/
structure KVRecord where
  key : String := ""
  value : Option JVal := none
  controller : Option String := none
  history : List (Option JVal) := []
  txid : Option String := none

/-- Code-unit lexicographic comparison on character lists (the order JS `<`
and `>` use on strings). -/
def jsStrLtL : List Char → List Char → Bool
  | [], [] => false
  | [], _ :: _ => true
  | _ :: _, [] => false
  | a :: as, b :: bs =>
    if a.toNat < b.toNat then true
    else if b.toNat < a.toNat then false
    else jsStrLtL as bs

/-- JS string `<`. -/
def jsStrLt (s t : String) : Bool :=
  jsStrLtL s.data t.data

/-- Sign of `s.localeCompare(t)` on the ASCII strings used as keys. -/
def jsCompare (s t : String) : Int :=
  if jsStrLt s t then -1 else if jsStrLt t s then 1 else 0

/-- JS `s.includes(c)` for a single character. -/
def jsIncludes (s : String) (c : Char) : Bool :=
  s.data.contains c

/-- JS `s.slice(0, n)` on a string. -/
def jsTake (s : String) (n : Nat) : String :=
  String.mk (s.data.take n)

/-- JS `s.split('/')[0]`: the part of `s` before the first `/`. -/
def splitFirst (s : String) : String :=
  String.mk (s.data.takeWhile fun ch => ch != '/')

/-- JS `s.startsWith(p)`. -/
def jsStartsWith (s p : String) : Bool :=
  p.data.isPrefixOf s.data

/-- Stable insertion used to model JS `Array.prototype.sort`: an element is
placed before the first list element it compares less-or-equal to, so
original order is kept among comparator ties. -/
def jsInsert (cmpLe : α → α → Bool) (x : α) : List α → List α
  | [] => [x]
  | y :: l => if cmpLe x y then x :: y :: l else y :: jsInsert cmpLe x l

/-- Stable sort modelling JS `Array.prototype.sort` with comparator `cmp`,
where `cmpLe a b` means `cmp a b ≤ 0`. -/
def jsSort (cmpLe : α → α → Bool) (l : List α) : List α :=
  l.foldr (jsInsert cmpLe) []

/-- The `normalizeLog` decoder: fills defaults for missing fields, keeps only
string elements of `tags`/`assets`, prefers the embedded `controller` string
over the physical record's `controller` argument, rejects entries with empty
`key` or `text`, and prefixes a date onto keys that carry no `/`. -/
def normalizeLog (raw : JVal) (controller : Option String) (gen : Gen) : Option LogEntry :=
  match raw with
  | .obj _ =>
    let key := match raw.getField "key" with | some (.str s) => s | _ => gen.freshKey
    let at_ := match raw.getField "at" with | some (.str s) => s | _ => gen.nowIso
    let text := match raw.getField "text" with | some (.str s) => s | _ => ""
    let tags := match raw.getField "tags" with
      | some (.arr xs) => some (xs.filterMap fun x => match x with | .str s => some s | _ => none)
      | _ => none
    let assets := match raw.getField "assets" with
      | some (.arr xs) => some (xs.filterMap fun x => match x with | .str s => some s | _ => none)
      | _ => none
    let ctrl := match raw.getField "controller" with | some (.str s) => some s | _ => controller
    if key = "" ∨ text = "" then none
    else
      let normalizedKey := if jsIncludes key '/' then key else (jsTake at_ 10) ++ "/" ++ key
      some ⟨normalizedKey, at_, text, tags, assets, ctrl, none⟩
  | _ => none

/-- The `parseLogEntry` decoder: `none` for an absent or unparseable value or
a non-object JSON value; a legacy day-chain container (object whose `logs`
field is an array) yields the normalization of the first chain element only;
anything else is normalized directly.  JS arrays pass the `typeof 'object'`
test, which is why `.arr` falls through to `normalizeLog` (where it yields
nothing). -/
def parseLogEntry (value : Option JVal) (controller : Option String) (gen : Gen) :
    Option LogEntry :=
  match value with
  | none => none
  | some parsed =>
    match parsed with
    | .obj _ | .arr _ =>
      (match parsed.getField "logs" with
       | some (.arr logs) =>
         (match logs with
          | [] => none
          | first :: _ => normalizeLog first controller gen)
       | _ => normalizeLog parsed controller gen)
    | _ => none

/-- The `matchesTagFilter` helper: entries without tags never match; `all`
mode requires every wanted tag to be present; otherwise any shared tag
suffices. -/
def matchesTagFilter (tags : List String) (filter : List String) (mode : Option String) :
    Bool :=
  if tags.isEmpty then false
  else if mode = some "all" then filter.all fun wanted => tags.contains wanted
  else tags.any fun tag => filter.contains tag

/-- The `cloneLog` helper (field-by-field copy; array copies are
value-identical here). -/
def cloneLog (log : LogEntry) : LogEntry :=
  ⟨log.key, log.at_, log.text, log.tags, log.assets, log.controller, log.txid⟩

/-- The controller filter of `listDay`: with a requested controller, an entry
whose controller differs (or is absent) is skipped. -/
def ctrlRejects (options : QueryOptions) (log : LogEntry) : Bool :=
  match options.controller with
  | some c => log.controller ≠ some c
  | none => false

/-- The effective tag filter: present only when `options.tags` is a nonempty
list (`options.tags && options.tags.length > 0`). -/
def tagFilterOf (options : QueryOptions) : Option (List String) :=
  match options.tags with
  | some ts => if ts.isEmpty then none else some ts
  | none => none

/-- The tag filter step of `listDay`. -/
def tagRejects (options : QueryOptions) (log : LogEntry) : Bool :=
  match tagFilterOf options with
  | some filter => ! matchesTagFilter (log.tags.getD []) filter options.tagQueryMode
  | none => false

/-- One decode-and-collect step of the `listDay` loop body, operating on the
state `(logs, seenKeys)`: parse the value, drop it if the key was already
seen or a filter rejects it, otherwise push a clone (with the record txid when
`includeTxid`) and mark the key seen. -/
def considerValue (options : QueryOptions) (gen : Gen) (txid : Option String)
    (recController : Option String) (value : Option JVal)
    (st : List LogEntry × List String) : List LogEntry × List String :=
  match parseLogEntry value recController gen with
  | none => st
  | some log =>
    if st.2.contains log.key then st
    else if ctrlRejects options log then st
    else if tagRejects options log then st
    else
      let cloned := cloneLog log
      let cloned := if options.includeTxid ∧ txid.isSome then { cloned with txid := txid } else cloned
      (st.1 ++ [cloned], st.2 ++ [log.key])

/-- The per-record part of the `listDay` loop: current value first, then every
historical value, in order. -/
def processRecord (options : QueryOptions) (gen : Gen)
    (st : List LogEntry × List String) (record : KVRecord) : List LogEntry × List String :=
  let st1 := considerValue options gen record.txid record.controller record.value st
  record.history.foldl
    (fun st2 pastValue => considerValue options gen record.txid record.controller pastValue st2)
    st1

/-- Comparator-le for the key sort `logs.sort((a, b) => a.key.localeCompare(b.key))`. -/
def keyLe (a b : LogEntry) : Bool :=
  jsCompare a.key b.key ≤ 0

/-- JS `Array.prototype.slice(s, e)` for clamped nonnegative indices. -/
def jsSlice (l : List α) (s e : Nat) : List α :=
  (l.drop s).take (e - s)

/-- JS `Array.prototype.slice(s)` for a clamped nonnegative start. -/
def jsSliceFrom (l : List α) (s : Nat) : List α :=
  l.drop s

/-- The reconstruction part of `listDay`: the deduplicating, filtering fold
over the store records. -/
def reconstructFiltered (rows : List KVRecord) (options : QueryOptions) (gen : Gen) :
    List LogEntry :=
  (rows.foldl (processRecord options gen) ([], [])).1

/-- The sort stage of `listDay`: lexicographic ascending by key, reversed when
`sortOrder = 'desc'`. -/
def sortStage (options : QueryOptions) (logs : List LogEntry) : List LogEntry :=
  if options.sortOrder = some "desc" then (jsSort keyLe logs).reverse else jsSort keyLe logs

/-- The `listDay` query engine over the rows the store returned for the day
key: reconstruct with interleaved dedup/filters, sort by key, then slice
`[skip, skip + limit)` with `skip` clamped to `≥ 0` and a missing or
non-positive `limit` meaning no limit. -/
def listDay (rows : List KVRecord) (options : QueryOptions) (gen : Gen) : List LogEntry :=
  let logs := reconstructFiltered rows options gen
  let sorted := sortStage options logs
  let skip := (max 0 (options.skip.getD 0)).toNat
  match options.limit with
  | some limit => if 0 < limit then jsSlice sorted skip (skip + limit.toNat) else jsSliceFrom sorted skip
  | none => jsSliceFrom sorted skip

/-- One `ingest` step of `getLogHistory`: parse, keep only entries whose key
is the requested `logKey`, push a clone (with txid when requested). -/
def ingest (logKey : String) (includeTxid : Bool) (gen : Gen)
    (value : Option JVal) (controller : Option String) (txid : Option String)
    (acc : List LogEntry) : List LogEntry :=
  match parseLogEntry value controller gen with
  | none => acc
  | some log =>
    if log.key ≠ logKey then acc
    else
      let cloned := cloneLog log
      let cloned := if includeTxid ∧ txid.isSome then { cloned with txid := txid } else cloned
      acc ++ [cloned]

/-- The history sort comparator: `at` descending when both `at` strings are
nonempty, otherwise reverse key comparison; comparator ties return 0. -/
def histCmp (a b : LogEntry) : Int :=
  if a.at_ ≠ "" ∧ b.at_ ≠ "" then
    if jsStrLt b.at_ a.at_ then -1 else if jsStrLt a.at_ b.at_ then 1 else 0
  else
    if jsStrLt b.key a.key then -1 else if jsStrLt a.key b.key then 1 else 0

/-- Comparator-le for the history sort. -/
def histLe (a b : LogEntry) : Bool :=
  histCmp a b ≤ 0

/-- The `getLogHistory` resolver over the rows the store returned for the
day key: ingest every current and historical value, keep the requested key,
sort newest first by the history comparator. -/
def getLogHistory (rows : List KVRecord) (logKey : String) (includeTxid : Bool) (gen : Gen) :
    List LogEntry :=
  let collected := rows.foldl
    (fun acc record =>
      let acc1 := ingest logKey includeTxid gen record.value record.controller record.txid acc
      record.history.foldl
        (fun acc2 past => ingest logKey includeTxid gen past record.controller record.txid acc2)
        acc1)
    []
  jsSort histLe collected

/-- Day-level physical key (`entry/{date}`). -/
def dayKey (day : String) : String :=
  "entry/" ++ day

/-- A `kv.set` write issued by the engine: target key, the entry serialized
into the value, and the store-level tags. -/
structure StoreWrite where
  key : String
  value : LogEntry
  tags : List String
deriving Repr, DecidableEq

/-- The `updateEntryByKey` mutator, with the store rows for the key's date as
input and the issued writes made explicit: re-read own entries (controller
filtered), locate the key, return `none` and write nothing when absent;
otherwise build the updated entry with the same key, fresh `at`, new text,
and tags/assets from the options or the prior version (defaulting to `[]`). -/
def updateEntryByKey (rows : List KVRecord) (identityKey : String)
    (logKey newText : String) (options : CreateLogOptions) (gen : Gen) (nowIso : String) :
    Option LogEntry × List StoreWrite :=
  let datePart := splitFirst logKey
  let existing := listDay rows { controller := some identityKey } gen
  match existing.find? (fun log => log.key == logKey) with
  | none => (none, [])
  | some current =>
    let updated : LogEntry :=
      ⟨logKey, nowIso, newText,
        some (options.tags.getD (current.tags.getD [])),
        some (options.assets.getD (current.assets.getD [])),
        some identityKey, none⟩
    (some updated, [⟨dayKey datePart, updated, (updated.tags.getD []) ++ [datePart]⟩])

/-- The day-key `removeDay`: one `kv.remove` on the day key inside
`try/catch`; a store error is swallowed into `false`. -/
def removeDay (removeOutcome : Except Unit Unit) : Bool :=
  match removeOutcome with
  | .ok _ => true
  | .error _ => false

/-- The day-key `removeEntry`: splits the date off the key and delegates to
`removeDay` for that date, with no per-entry existence or ownership lookup. -/
def removeEntry (logKey : String) (removeOutcome : Except Unit Unit) : Bool :=
  let _datePart := splitFirst logKey
  removeDay removeOutcome

/-! Key scheme (`nextIdForDay`). -/

/-- Decimal digit characters of `n`, modelling JS `String(n)` for the
natural numbers produced by the `Date` getters. -/
def natChars (n : Nat) : List Char :=
  if _h : n < 10 then [Char.ofNat (48 + n)]
  else natChars (n / 10) ++ [Char.ofNat (48 + n % 10)]
decreasing_by exact Nat.div_lt_self (by omega) (by omega)

/-- JS `padStart(w, '0')` on a character list. -/
def padStart (w : Nat) (chars : List Char) : List Char :=
  List.replicate (w - chars.length) '0' ++ chars

/-- Zero-padded fixed-width decimal rendering, `String(n).padStart(w, '0')`. -/
def pad (w : Nat) (n : Nat) : List Char :=
  padStart w (natChars n)

/-- Specification-side numeric reading of a digit string (most significant
digit first), used to relate lexicographic order of padded decimal strings
to numeric order. -/
def digitsVal : List Char → Nat
  | [] => 0
  | c :: cs => (c.toNat - 48) * 10 ^ cs.length + digitsVal cs

/-- A UTC instant as exposed by the `Date` getters used in `nextIdForDay` and
`toISOString`, with the ranges those getters guarantee (weakened to the
bounds the fixed-width rendering needs). -/
structure UTCTime where
  year : Nat
  month : Nat
  day : Nat
  hour : Nat
  minute : Nat
  second : Nat
  ms : Nat
  hYear : year < 10000
  hMonth : month < 100
  hDay : day < 100
  hHour : hour < 100
  hMinute : minute < 100
  hSecond : second < 100
  hMs : ms < 1000

/-- Chronological (wall-clock lexicographic) order on UTC instants. -/
def chronoLt (t1 t2 : UTCTime) : Prop :=
  t1.year < t2.year ∨ (t1.year = t2.year ∧
    (t1.month < t2.month ∨ (t1.month = t2.month ∧
      (t1.day < t2.day ∨ (t1.day = t2.day ∧
        (t1.hour < t2.hour ∨ (t1.hour = t2.hour ∧
          (t1.minute < t2.minute ∨ (t1.minute = t2.minute ∧
            (t1.second < t2.second ∨ (t1.second = t2.second ∧
              t1.ms < t2.ms)))))))))))

instance (t1 t2 : UTCTime) : Decidable (chronoLt t1 t2) := by
  unfold chronoLt; infer_instance

/-- The `YYYY-MM-DD` date string `now.toISOString().slice(0, 10)` of an
instant. -/
def isoDate (t : UTCTime) : String :=
  String.mk (pad 4 t.year) ++ "-" ++ String.mk (pad 2 t.month) ++ "-" ++ String.mk (pad 2 t.day)

/-- The `nextIdForDay` key builder,
`{yyyyMmDd}/{HHmmss}-{SSS}{rand}`, with the 4-character random disambiguator
passed in as `rand`. -/
def nextIdForDay (yyyyMmDd : String) (t : UTCTime) (rand : String) : String :=
  yyyyMmDd ++ "/" ++ String.mk (pad 2 t.hour) ++ String.mk (pad 2 t.minute) ++
    String.mk (pad 2 t.second) ++ "-" ++ String.mk (pad 3 t.ms) ++ rand

/-! Specification-side descriptions (stated from the spec's words, to be
compared with the code-side functions above). -/

/-- The candidate values of a row batch in the order `listDay` and
`getLogHistory` encounter them: for each record its current value first,
then each historical value; each candidate carries the record's controller
and txid. -/
def recordCands (record : KVRecord) : List (Option JVal × Option String × Option String) :=
  (record.value, record.controller, record.txid) ::
    record.history.map (fun past => (past, record.controller, record.txid))

/-- All candidate values of a row batch, in encounter order. -/
def candStream (rows : List KVRecord) : List (Option JVal × Option String × Option String) :=
  rows.flatMap recordCands

/-- Every entry the batch decodes to (current values before history), in
encounter order. -/
def decodedStream (rows : List KVRecord) (gen : Gen) : List LogEntry :=
  (candStream rows).filterMap fun cand => parseLogEntry cand.1 cand.2.1 gen

/-- Specification-side pagination: the slice `[skip, skip + limit)` of the
filtered sorted list, `skip` clamped to `≥ 0`, an absent or non-positive
`limit` meaning no limit. -/
def specPaginate (skip : Int) (limit : Option Int) (l : List LogEntry) : List LogEntry :=
  match limit with
  | some n =>
    if 0 < n then (l.drop (max 0 skip).toNat).take n.toNat
    else l.drop (max 0 skip).toNat
  | none => l.drop (max 0 skip).toNat

/-- Specification-side history candidates: the decoded entries whose key is
the requested one, in encounter order. -/
def histCandidates (rows : List KVRecord) (logKey : String) (gen : Gen) : List LogEntry :=
  (decodedStream rows gen).filter fun entry => entry.key == logKey

/-- The entry `listDay` pushes for a decoded log: a clone, with the record
txid attached when `includeTxid` was requested and a txid is present. -/
def pushedEntry (options : QueryOptions) (txid : Option String) (log : LogEntry) : LogEntry :=
  if options.includeTxid ∧ txid.isSome then { cloneLog log with txid := txid } else cloneLog log

/-- The reconstruction fold step, at the granularity of one candidate value. -/
def considerStep (options : QueryOptions) (gen : Gen)
    (st : List LogEntry × List String)
    (cand : Option JVal × Option String × Option String) : List LogEntry × List String :=
  considerValue options gen cand.2.2 cand.2.1 cand.1 st

/-- The history collection fold step, at the granularity of one candidate
value. -/
def ingestStep (logKey : String) (includeTxid : Bool) (gen : Gen)
    (acc : List LogEntry) (cand : Option JVal × Option String × Option String) : List LogEntry :=
  ingest logKey includeTxid gen cand.1 cand.2.1 cand.2.2 acc

end Gloss

namespace SrcV

open Gloss

/-- Query options of the paging `listDay` variant in `src/GlossClient.ts`. -/
structure QueryOptions where
  controller : Option String := none
  tags : Option (List String) := none
  sortOrder : Option String := none
  skip : Option Int := none
  limit : Option Int := none
  pageSize : Option Int := none
  maxPages : Option Int := none
deriving Repr, DecidableEq

/-- The plain `JSON.parse(rec.value) as LogEntry` cast of the paging variant
(no normalization; missing string fields read as absent/empty), followed by
the controller overwrite `if (rec.controller) e.controller = rec.controller`. -/
def decodeCast (value : JVal) (recController : Option String) : Option LogEntry :=
  match value with
  | .obj _ =>
    let entry : LogEntry :=
      ⟨(match value.getField "key" with | some (.str s) => s | _ => ""),
        (match value.getField "at" with | some (.str s) => s | _ => ""),
        (match value.getField "text" with | some (.str s) => s | _ => ""),
        (match value.getField "tags" with
         | some (.arr xs) => some (xs.filterMap fun x => match x with | .str s => some s | _ => none)
         | _ => none),
        (match value.getField "assets" with
         | some (.arr xs) => some (xs.filterMap fun x => match x with | .str s => some s | _ => none)
         | _ => none),
        (match value.getField "controller" with | some (.str s) => some s | _ => none),
        none⟩
    match recController with
    | some c => some { entry with controller := some c }
    | none => some entry
  | _ => none

/-- The `consider` step of the paging `listDay`: skip records without a
string value or whose key lacks the `entry/{date}/` date marker, then parse. -/
def consider (keyPre : String) (record : KVRecord) : Option LogEntry :=
  match record.value with
  | none => none
  | some value =>
    if jsStartsWith record.key keyPre then decodeCast value record.controller else none

/-- Comparator-le for the ascending key sort of the paging variant. -/
def keyLeAsc (a b : LogEntry) : Bool :=
  jsCompare a.key b.key ≤ 0

/-- Comparator-le for the descending key sort of the paging variant. -/
def keyLeDesc (a b : LogEntry) : Bool :=
  jsCompare b.key a.key ≤ 0

/-- The bounded multi-page scan of the paging `listDay`: fetch up to `fuel`
store pages of `pageSize` rows (`store.drop skip |>.take pageSize` models
`kv.get` with `limit`/`skip` against the protocol-wide scan order), collect
the day's parsed candidates, and stop early on an empty page or once `want`
post-parse results are accumulated. -/
def scanPages (store : List KVRecord) (keyPre : String) (pageSize : Nat)
    (want : Option Nat) : Nat → Nat → List LogEntry → List LogEntry
  | 0, _, out => out
  | fuel + 1, skip, out =>
    let rows := (store.drop skip).take pageSize
    if rows.length = 0 then out
    else
      let out1 := out ++ rows.filterMap (consider keyPre)
      match want with
      | some w =>
        if w ≤ out1.length then out1
        else scanPages store keyPre pageSize want fuel (skip + rows.length) out1
      | none => scanPages store keyPre pageSize want fuel (skip + rows.length) out1

/-- The paging `listDay` of `src/GlossClient.ts`, over the store's
protocol-wide scan order: page through the store, filter client-side by the
date marker, controller, and any-of tags, sort by key, apply the final
limit. -/
def listDay (store : List KVRecord) (date : String) (options : QueryOptions) : List LogEntry :=
  let keyPre := "entry/" ++ date ++ "/"
  let pageSize := (max 1 (min (options.pageSize.getD 500) 2000)).toNat
  let maxPages := (max 1 (options.maxPages.getD 20)).toNat
  let want : Option Nat := match options.limit with
    | some l => if 0 < l then some l.toNat else none
    | none => none
  let skip := (max 0 (options.skip.getD 0)).toNat
  let out := scanPages store keyPre pageSize want maxPages skip []
  let filtered := match options.controller with
    | some c => out.filter fun entry => entry.controller == some c
    | none => out
  let filtered := match options.tags with
    | some ts =>
      if ts.isEmpty then filtered
      else filtered.filter fun entry => (entry.tags.getD []).any fun t => ts.contains t
    | none => filtered
  let sorted := if (options.sortOrder.getD "asc") = "asc" then jsSort keyLeAsc filtered
    else jsSort keyLeDesc filtered
  match want with
  | some w => sorted.take w
  | none => sorted

/-- The paging `removeDay` loop: fetch one 500-row store page of own entries
per iteration, `kv.remove` each (an outcome of `false` for a key models the
store raising there, which the code does not catch, so it propagates),
remember that something was removed, advance `skip` by the page size.  The
store snapshot is held fixed across iterations; the per-key `removeOk`
outcome map models the remove effects.  `fuel` bounds the iteration count;
the run wrapper supplies enough fuel for the loop's own exit conditions to
fire first. -/
def removeDayLoop (store : List KVRecord) (date identity : String)
    (removeOk : String → Bool) : Nat → Nat → Bool → Except Unit Bool
  | 0, _, removedAny => .ok removedAny
  | fuel + 1, skip, removedAny =>
    let page := listDay store date
      { controller := some identity, limit := some 500, skip := some (skip : Int),
        pageSize := some 500, maxPages := some 1, sortOrder := some "asc" }
    if page.length = 0 then .ok removedAny
    else
      if page.all (fun entry => removeOk ("entry/" ++ entry.key)) then
        removeDayLoop store date identity removeOk fuel (skip + 500) true
      else .error ()

/-- The paging `removeDay`, run with adequate fuel. -/
def removeDay (store : List KVRecord) (date identity : String)
    (removeOk : String → Bool) : Except Unit Bool :=
  removeDayLoop store date identity removeOk (store.length / 500 + 2) 0 false

/-- Specification-side candidates of the paging variant: every store record
that parses for the date, filtered to the caller's controller. -/
def ownCandidates (store : List KVRecord) (date identity : String) : List LogEntry :=
  (store.filterMap (consider ("entry/" ++ date ++ "/"))).filter
    fun entry => entry.controller == some identity

end SrcV


namespace Gloss

/-! Concrete fixtures used by witnesses and counterexamples. -/

/-- A fixed ambient environment (the defaults it provides are never hit by
the well-formed fixtures below). -/
def g0 : Gen := ⟨"2025-01-02T00:00:00.000Z", "2025-01-02/000000-000zzzz"⟩

/-- A canonical serialized entry as `JSON.parse` returns it. -/
def entryJson (key at_ text : String) : JVal :=
  .obj [("key", .str key), ("at", .str at_), ("text", .str text)]

/-- A canonical serialized entry carrying an embedded controller. -/
def entryJsonCtrl (key at_ text ctrl : String) : JVal :=
  .obj [("key", .str key), ("at", .str at_), ("text", .str text), ("controller", .str ctrl)]

/-- One record whose history repeats its current value (an unmodified
re-read). -/
def w1rows : List KVRecord :=
  [{ key := "entry/2025-01-02",
     value := some (entryJson "2025-01-02/000001-000aaaa" "2025-01-02T00:00:01.000Z" "hello"),
     controller := some "me",
     history := [some (entryJson "2025-01-02/000001-000aaaa" "2025-01-02T00:00:01.000Z" "hello")] }]

/-- The logical entry held by `w1rows`. -/
def e1 : LogEntry :=
  ⟨"2025-01-02/000001-000aaaa", "2025-01-02T00:00:01.000Z", "hello", none, none, some "me", none⟩

/-- Ten records with distinct ascending keys for one day. -/
def rows10 : List KVRecord :=
  ["0", "1", "2", "3", "4", "5", "6", "7", "8", "9"].map fun d =>
    { key := "entry/2025-01-02",
      value := some (entryJson ("2025-01-02/00000" ++ d ++ "-000aaaa")
        "2025-01-02T00:00:00.000Z" "t"),
      controller := some "me" }

/-- Pagination options of the spec example: skip 3, limit 4. -/
def opts3 : QueryOptions := { skip := some 3, limit := some 4 }

/-- The key shared by the `getLogHistory` fixtures. -/
def kC4 : String := "2025-01-02/000003-000aaaa"

/-- A version of the `kC4` entry with the given `at`. -/
def vAt (at_ : String) : JVal := entryJson kC4 at_ "t"

/-- Three versions of one entry: `at` of the middle historical version is the
empty string (a missing timestamp). -/
def rowsC4 : List KVRecord :=
  [{ key := "entry/2025-01-02", value := some (vAt "2025-01-02T00:00:01.000Z"),
     controller := some "me",
     history := [some (vAt ""), some (vAt "2025-01-02T00:00:02.000Z")] }]

/-- Two versions of one entry, both with proper timestamps. -/
def rowsH : List KVRecord :=
  [{ key := "entry/2025-01-02", value := some (vAt "2025-01-02T00:00:02.000Z"),
     controller := some "me",
     history := [some (vAt "2025-01-02T00:00:01.000Z")] }]

/-- A raw value whose embedded controller `A` conflicts with the physical
record controller `B`. -/
def jC5 : JVal :=
  entryJsonCtrl "2025-01-02/000005-000aaaa" "2025-01-02T00:00:05.000Z" "hi" "A"

/-- What `jC5` decodes to. -/
def eC5 : LogEntry :=
  ⟨"2025-01-02/000005-000aaaa", "2025-01-02T00:00:05.000Z", "hi", none, none, some "A", none⟩

/-- A day whose only entry belongs to the controller `other`. -/
def rowsC6 : List KVRecord :=
  [{ key := "entry/2025-01-02",
     value := some (entryJsonCtrl "2025-01-02/000006-000aaaa" "2025-01-02T00:00:06.000Z"
       "hi" "other"),
     controller := some "other" }]

/-- The key of the update-fixture entry. -/
def kC7 : String := "2025-01-02/000007-000aaaa"

/-- A day with one owned entry that carries no `tags`/`assets` fields. -/
def rowsC7 : List KVRecord :=
  [{ key := "entry/2025-01-02", value := some (entryJson kC7 "2025-01-02T00:00:07.000Z" "hi"),
     controller := some "me" }]

/-- The update instant of the update fixture. -/
def now7 : String := "2025-01-03T00:00:00.000Z"

/-- The prior version the update fixture re-reads. -/
def curC7 : LogEntry := ⟨kC7, "2025-01-02T00:00:07.000Z", "hi", none, none, some "me", none⟩

/-- The updated entry the update fixture produces. -/
def uC7 : LogEntry := ⟨kC7, now7, "new", some [], some [], some "me", none⟩

/-- Two instants one millisecond apart. -/
def tA : UTCTime :=
  ⟨2025, 1, 2, 3, 4, 5, 6, by omega, by omega, by omega, by omega, by omega, by omega, by omega⟩

/-- The later of the two fixture instants. -/
def tB : UTCTime :=
  ⟨2025, 1, 2, 3, 4, 5, 7, by omega, by omega, by omega, by omega, by omega, by omega, by omega⟩

/-- A store holding one entry of the caller for the day, for the paging
variant. -/
def storeC9 : List KVRecord :=
  [{ key := "entry/2025-01-02/000009-000aaaa",
     value := some (entryJson "2025-01-02/000009-000aaaa" "2025-01-02T00:00:09.000Z" "hi"),
     controller := some "me" }]

/-- First element of the legacy day-chain fixture. -/
def jA : JVal := entryJson "2025-01-02/000010-000aaaa" "2025-01-02T00:00:10.000Z" "first"

/-- Second element of the legacy day-chain fixture. -/
def jB : JVal := entryJson "2025-01-02/000011-000aaaa" "2025-01-02T00:00:11.000Z" "second"

/-- A legacy day-chain container holding two logs. -/
def jChain : JVal := .obj [("key", .str "2025-01-02"), ("logs", .arr [jA, jB])]

/-- What the first chain element decodes to under record controller `me`. -/
def eA : LogEntry :=
  ⟨"2025-01-02/000010-000aaaa", "2025-01-02T00:00:10.000Z", "first", none, none, some "me", none⟩

end Gloss


/-! Theorems.  First, infrastructure about the modelled JS string order and
stable sort. -/

namespace Gloss

theorem jsStrLtL_irrefl : ∀ l : List Char, jsStrLtL l l = false
  | [] => rfl
  | a :: as => by
    simp only [jsStrLtL]
    rw [if_neg (by omega), if_neg (by omega)]
    exact jsStrLtL_irrefl as

theorem jsStrLtL_asymm : ∀ {a b : List Char}, jsStrLtL a b = true → jsStrLtL b a = false
  | [], [], h => by simp [jsStrLtL] at h
  | [], _ :: _, _ => rfl
  | _ :: _, [], h => by simp [jsStrLtL] at h
  | x :: xs, y :: ys, h => by
    simp only [jsStrLtL] at h ⊢
    by_cases h1 : x.toNat < y.toNat
    · rw [if_neg (by omega), if_pos h1]
    · rw [if_neg h1] at h
      by_cases h2 : y.toNat < x.toNat
      · simp [h2] at h
      · rw [if_neg h2] at h
        rw [if_neg h2, if_neg h1]
        exact jsStrLtL_asymm h

theorem jsStrLtL_trans : ∀ {a b c : List Char},
    jsStrLtL a b = true → jsStrLtL b c = true → jsStrLtL a c = true
  | [], [], _, h1, _ => by simp [jsStrLtL] at h1
  | [], _ :: _, [], _, h2 => by simp [jsStrLtL] at h2
  | [], _ :: _, _ :: _, _, _ => rfl
  | _ :: _, [], _, h1, _ => by simp [jsStrLtL] at h1
  | _ :: _, _ :: _, [], _, h2 => by simp [jsStrLtL] at h2
  | x :: xs, y :: ys, z :: zs, h1, h2 => by
    simp only [jsStrLtL] at h1 h2 ⊢
    by_cases hxy : x.toNat < y.toNat
    · by_cases hyz : y.toNat < z.toNat
      · rw [if_pos (by omega)]
      · rw [if_neg hyz] at h2
        by_cases hzy : z.toNat < y.toNat
        · simp [hzy] at h2
        · rw [if_pos (by omega)]
    · rw [if_neg hxy] at h1
      by_cases hyx : y.toNat < x.toNat
      · simp [hyx] at h1
      · rw [if_neg hyx] at h1
        by_cases hyz : y.toNat < z.toNat
        · rw [if_pos (by omega)]
        · rw [if_neg hyz] at h2
          by_cases hzy : z.toNat < y.toNat
          · simp [hzy] at h2
          · rw [if_neg hzy] at h2
            rw [if_neg (by omega), if_neg (by omega)]
            exact jsStrLtL_trans h1 h2

theorem jsStrLtL_connex : ∀ {a b : List Char},
    jsStrLtL a b = false → jsStrLtL b a = false → a = b
  | [], [], _, _ => rfl
  | [], _ :: _, h1, _ => by simp [jsStrLtL] at h1
  | _ :: _, [], _, h2 => by simp [jsStrLtL] at h2
  | x :: xs, y :: ys, h1, h2 => by
    simp only [jsStrLtL] at h1 h2
    by_cases hxy : x.toNat < y.toNat
    · simp [hxy] at h1
    · by_cases hyx : y.toNat < x.toNat
      · simp [hyx] at h2
      · rw [if_neg hxy, if_neg hyx] at h1
        rw [if_neg hyx, if_neg hxy] at h2
        have hval : x.toNat = y.toNat := by omega
        have hx : x = y := Char.ext (UInt32.ext hval)
        rw [hx, jsStrLtL_connex h1 h2]

theorem jsStrLt_asymm {s t : String} (h : jsStrLt s t = true) : jsStrLt t s = false :=
  jsStrLtL_asymm h

theorem jsStrLt_trans {s t u : String} (h1 : jsStrLt s t = true) (h2 : jsStrLt t u = true) :
    jsStrLt s u = true :=
  jsStrLtL_trans h1 h2

theorem jsStrLt_connex {s t : String} (h1 : jsStrLt s t = false) (h2 : jsStrLt t s = false) :
    s = t := by
  cases s; cases t
  exact congrArg String.mk (jsStrLtL_connex h1 h2)

theorem jsInsert_perm (cmpLe : α → α → Bool) (x : α) :
    ∀ l : List α, (jsInsert cmpLe x l).Perm (x :: l)
  | [] => List.Perm.refl _
  | y :: l => by
    simp only [jsInsert]
    by_cases h : cmpLe x y
    · rw [if_pos h]
    · rw [if_neg h]
      exact ((jsInsert_perm cmpLe x l).cons y).trans (List.Perm.swap x y l)

theorem jsSort_perm (cmpLe : α → α → Bool) : ∀ l : List α, (jsSort cmpLe l).Perm l
  | [] => List.Perm.refl _
  | x :: l => by
    simp only [jsSort, List.foldr_cons]
    exact (jsInsert_perm cmpLe x _).trans ((jsSort_perm cmpLe l).cons x)

theorem mem_jsSort {cmpLe : α → α → Bool} {l : List α} {a : α} :
    a ∈ jsSort cmpLe l ↔ a ∈ l :=
  (jsSort_perm cmpLe l).mem_iff

theorem mem_jsInsert {cmpLe : α → α → Bool} {x : α} {l : List α} {a : α} :
    a ∈ jsInsert cmpLe x l ↔ a = x ∨ a ∈ l := by
  rw [(jsInsert_perm cmpLe x l).mem_iff, List.mem_cons]

theorem jsInsert_pairwise {cmpLe : α → α → Bool} {P : α → Prop}
    (total : ∀ a b, P a → P b → cmpLe a b = true ∨ cmpLe b a = true)
    (htrans : ∀ a b c, P a → P b → P c → cmpLe a b = true → cmpLe b c = true → cmpLe a c = true)
    {x : α} (hx : P x) :
    ∀ {l : List α}, (∀ a ∈ l, P a) → l.Pairwise (fun a b => cmpLe a b = true) →
      (jsInsert cmpLe x l).Pairwise (fun a b => cmpLe a b = true)
  | [], _, _ => by simp [jsInsert]
  | y :: l, hl, hp => by
    have hy : P y := hl y (by simp)
    have hlrest : ∀ a ∈ l, P a := fun a ha => hl a (by simp [ha])
    simp only [jsInsert]
    by_cases h : cmpLe x y
    · rw [if_pos h]
      refine hp.cons ?_
      intro b hb
      rcases List.mem_cons.mp hb with rfl | hb
      · exact h
      · exact htrans x y b hx hy (hlrest b hb) h ((List.pairwise_cons.mp hp).1 b hb)
    · rw [if_neg h]
      have hyx : cmpLe y x = true := by
        rcases total x y hx hy with h1 | h1
        · exact absurd h1 h
        · exact h1
      refine List.pairwise_cons.mpr ⟨?_, ?_⟩
      · intro b hb
        rcases mem_jsInsert.mp hb with rfl | hb
        · exact hyx
        · exact (List.pairwise_cons.mp hp).1 b hb
      · exact jsInsert_pairwise total htrans hx hlrest (List.pairwise_cons.mp hp).2

theorem jsSort_pairwise {cmpLe : α → α → Bool} {P : α → Prop}
    (total : ∀ a b, P a → P b → cmpLe a b = true ∨ cmpLe b a = true)
    (htrans : ∀ a b c, P a → P b → P c → cmpLe a b = true → cmpLe b c = true → cmpLe a c = true) :
    ∀ {l : List α}, (∀ a ∈ l, P a) →
      (jsSort cmpLe l).Pairwise (fun a b => cmpLe a b = true)
  | [], _ => by simp [jsSort]
  | x :: l, hl => by
    have hrest : ∀ a ∈ l, P a := fun a ha => hl a (by simp [ha])
    have hsorted := @jsSort_pairwise _ cmpLe P total htrans l hrest
    have hmem : ∀ a ∈ jsSort cmpLe l, P a := fun a ha => hrest a (mem_jsSort.mp ha)
    exact jsInsert_pairwise total htrans (hl x (by simp)) hmem hsorted

end Gloss

namespace Gloss

theorem contains_eq_false_iff {l : List String} {a : String} :
    l.contains a = false ↔ a ∉ l := by
  simp [Bool.eq_false_iff, List.elem_iff]

theorem cloneLog_eq (log : LogEntry) : cloneLog log = log := rfl

theorem pushedEntry_key (options : QueryOptions) (txid : Option String) (log : LogEntry) :
    (pushedEntry options txid log).key = log.key := by
  unfold pushedEntry
  split <;> rfl

theorem pushedEntry_of_not_includeTxid (options : QueryOptions) (txid : Option String)
    (log : LogEntry) (h : options.includeTxid = false) :
    pushedEntry options txid log = log := by
  unfold pushedEntry
  rw [if_neg (by simp [h])]
  exact cloneLog_eq log

theorem considerValue_none (options : QueryOptions) (gen : Gen) (txid : Option String)
    (recController : Option String) (value : Option JVal) (st : List LogEntry × List String)
    (h : parseLogEntry value recController gen = none) :
    considerValue options gen txid recController value st = st := by
  unfold considerValue
  rw [h]

theorem considerValue_some (options : QueryOptions) (gen : Gen) (txid : Option String)
    (recController : Option String) (value : Option JVal) (st : List LogEntry × List String)
    (log : LogEntry) (h : parseLogEntry value recController gen = some log) :
    considerValue options gen txid recController value st =
      (if st.2.contains log.key then st
       else if ctrlRejects options log then st
       else if tagRejects options log then st
       else (st.1 ++ [pushedEntry options txid log], st.2 ++ [log.key])) := by
  unfold considerValue pushedEntry
  rw [h]

theorem processRecord_eq (options : QueryOptions) (gen : Gen)
    (st : List LogEntry × List String) (record : KVRecord) :
    processRecord options gen st record =
      (recordCands record).foldl (considerStep options gen) st := by
  simp only [processRecord, recordCands, considerStep, List.foldl_cons, List.foldl_map]

theorem foldl_processRecord_eq (options : QueryOptions) (gen : Gen) :
    ∀ (rows : List KVRecord) (st : List LogEntry × List String),
      rows.foldl (processRecord options gen) st =
        (candStream rows).foldl (considerStep options gen) st
  | [], _ => rfl
  | r :: rows, st => by
    simp only [List.foldl_cons, candStream, List.flatMap_cons, List.foldl_append]
    rw [processRecord_eq, foldl_processRecord_eq options gen rows]
    simp only [candStream]

theorem reconstruct_nodup_aux (options : QueryOptions) (gen : Gen) :
    ∀ (cands : List (Option JVal × Option String × Option String))
      (st : List LogEntry × List String),
      (st.1.map LogEntry.key).Nodup → (∀ l ∈ st.1, l.key ∈ st.2) →
      ((cands.foldl (considerStep options gen) st).1.map LogEntry.key).Nodup ∧
        ∀ l ∈ (cands.foldl (considerStep options gen) st).1,
          l.key ∈ (cands.foldl (considerStep options gen) st).2
  | [], st, h1, h2 => ⟨h1, h2⟩
  | c :: cands, st, h1, h2 => by
    rw [List.foldl_cons]
    have hstep : ((considerStep options gen st c).1.map LogEntry.key).Nodup ∧
        ∀ l ∈ (considerStep options gen st c).1, l.key ∈ (considerStep options gen st c).2 := by
      unfold considerStep
      cases hp : parseLogEntry c.1 c.2.1 gen with
      | none => rw [considerValue_none _ _ _ _ _ _ hp]; exact ⟨h1, h2⟩
      | some log =>
        rw [considerValue_some _ _ _ _ _ _ _ hp]
        by_cases hs : st.2.contains log.key
        · rw [if_pos hs]; exact ⟨h1, h2⟩
        · rw [if_neg hs]
          by_cases hc : ctrlRejects options log
          · rw [if_pos hc]; exact ⟨h1, h2⟩
          · rw [if_neg hc]
            by_cases ht : tagRejects options log
            · rw [if_pos ht]; exact ⟨h1, h2⟩
            · rw [if_neg ht]
              have hnotmem : log.key ∉ st.2 :=
                contains_eq_false_iff.mp (Bool.eq_false_iff.mpr hs)
              constructor
              · rw [List.map_append]
                rw [List.nodup_append]
                refine ⟨h1, by simp, ?_⟩
                intro a ha hb
                simp only [List.map_cons, List.map_nil, List.mem_singleton,
                  pushedEntry_key] at hb
                subst hb
                rcases List.mem_map.mp ha with ⟨l, hl, hlk⟩
                exact hnotmem (hlk ▸ h2 l hl)
              · intro l hl
                rcases List.mem_append.mp hl with hl | hl
                · exact List.mem_append_left _ (h2 l hl)
                · simp only [List.mem_singleton] at hl
                  subst hl
                  simp [pushedEntry_key]
    exact reconstruct_nodup_aux options gen cands _ hstep.1 hstep.2

theorem reconstructFiltered_nodup (rows : List KVRecord) (options : QueryOptions) (gen : Gen) :
    ((reconstructFiltered rows options gen).map LogEntry.key).Nodup := by
  unfold reconstructFiltered
  rw [foldl_processRecord_eq]
  exact (reconstruct_nodup_aux options gen (candStream rows) ([], [])
    (by simp) (by simp)).1

end Gloss

namespace Gloss

theorem ctrlRejects_of_none (options : QueryOptions) (log : LogEntry)
    (h : options.controller = none) : ctrlRejects options log = false := by
  unfold ctrlRejects
  rw [h]

theorem tagRejects_of_none (options : QueryOptions) (log : LogEntry)
    (h : tagFilterOf options = none) : tagRejects options log = false := by
  unfold tagRejects
  rw [h]

theorem ctrlRejects_false_iff (options : QueryOptions) (log : LogEntry) (c : String)
    (h : options.controller = some c) :
    ctrlRejects options log = false ↔ log.controller = some c := by
  unfold ctrlRejects
  rw [h]
  simp [decide_eq_false_iff_not]

theorem sortStage_perm (options : QueryOptions) (logs : List LogEntry) :
    (sortStage options logs).Perm logs := by
  unfold sortStage
  by_cases h : options.sortOrder = some "desc"
  · rw [if_pos h]
    exact (List.reverse_perm _).trans (jsSort_perm keyLe logs)
  · rw [if_neg h]
    exact jsSort_perm keyLe logs

theorem listDay_eq (rows : List KVRecord) (options : QueryOptions) (gen : Gen) :
    listDay rows options gen =
      specPaginate (options.skip.getD 0) options.limit
        (sortStage options (reconstructFiltered rows options gen)) := by
  cases hl : options.limit with
  | none => simp only [listDay, specPaginate, jsSlice, jsSliceFrom, hl]
  | some limit =>
    by_cases h : 0 < limit
    · simp only [listDay, specPaginate, jsSlice, jsSliceFrom, hl, if_pos h,
        Nat.add_sub_cancel_left]
    · simp only [listDay, specPaginate, jsSlice, jsSliceFrom, hl, if_neg h]

theorem listDay_sublist (rows : List KVRecord) (options : QueryOptions) (gen : Gen) :
    (listDay rows options gen).Sublist
      (sortStage options (reconstructFiltered rows options gen)) := by
  rw [listDay_eq]
  cases hl : options.limit with
  | none =>
    simp only [specPaginate, hl]
    exact List.drop_sublist _ _
  | some limit =>
    by_cases h : 0 < limit
    · simp only [specPaginate, hl, if_pos h]
      exact (List.take_sublist _ _).trans (List.drop_sublist _ _)
    · simp only [specPaginate, hl, if_neg h]
      exact List.drop_sublist _ _

theorem reconstruct_first_aux (options : QueryOptions) (gen : Gen)
    (hc : options.controller = none) (htf : tagFilterOf options = none)
    (htx : options.includeTxid = false) :
    ∀ (cands : List (Option JVal × Option String × Option String))
      (st : List LogEntry × List String),
      ∀ l ∈ (cands.foldl (considerStep options gen) st).1,
        l ∈ st.1 ∨ (l.key ∉ st.2 ∧
          (cands.filterMap fun c => parseLogEntry c.1 c.2.1 gen).find?
            (fun d => d.key == l.key) = some l)
  | [], _, _, hl => Or.inl hl
  | c :: cands, st, l, hl => by
    rw [List.foldl_cons] at hl
    cases hp : parseLogEntry c.1 c.2.1 gen with
    | none =>
      rw [@List.filterMap_cons_none _ _ (fun c => parseLogEntry c.1 c.2.1 gen) c cands hp]
      have hl' : l ∈ (cands.foldl (considerStep options gen) st).1 := by
        rwa [show considerStep options gen st c = st by
          unfold considerStep; exact considerValue_none _ _ _ _ _ _ hp] at hl
      exact reconstruct_first_aux options gen hc htf htx cands st l hl'
    | some log =>
      rw [@List.filterMap_cons_some _ _ (fun c => parseLogEntry c.1 c.2.1 gen) c cands log hp]
      have hstep : considerStep options gen st c =
          (if st.2.contains log.key then st else (st.1 ++ [log], st.2 ++ [log.key])) := by
        unfold considerStep
        rw [considerValue_some _ _ _ _ _ _ _ hp, ctrlRejects_of_none _ _ hc,
          tagRejects_of_none _ _ htf, pushedEntry_of_not_includeTxid _ _ _ htx]
        by_cases hs : st.2.contains log.key
        · rw [if_pos hs, if_pos hs]
        · rw [if_neg hs, if_neg hs]
          simp
      by_cases hs : st.2.contains log.key
      · rw [hstep, if_pos hs] at hl
        rcases reconstruct_first_aux options gen hc htf htx cands st l hl with h | ⟨hk, hf⟩
        · exact Or.inl h
        · refine Or.inr ⟨hk, ?_⟩
          have hne : l.key ≠ log.key := fun he => hk (he ▸ List.elem_iff.mp hs)
          have hpred : ¬ ((log.key == l.key) = true) := by
            simp only [beq_iff_eq]
            exact fun he => hne he.symm
          rw [@List.find?_cons_of_neg _ (fun d => d.key == l.key) log _ hpred]
          exact hf
      · rw [hstep, if_neg hs] at hl
        have hnotmem : log.key ∉ st.2 := contains_eq_false_iff.mp (Bool.eq_false_iff.mpr hs)
        rcases reconstruct_first_aux options gen hc htf htx cands _ l hl with h | ⟨hk, hf⟩
        · rcases List.mem_append.mp h with h | h
          · exact Or.inl h
          · simp only [List.mem_singleton] at h
            subst h
            refine Or.inr ⟨hnotmem, ?_⟩
            rw [List.find?_cons_of_pos _ (by simp)]
        · have hk2 : l.key ∉ st.2 := fun hmem => hk (List.mem_append_left _ hmem)
          have hne : l.key ≠ log.key := fun he =>
            hk (he ▸ List.mem_append_right _ (by simp))
          have hpred : ¬ ((log.key == l.key) = true) := by
            simp only [beq_iff_eq]
            exact fun he => hne he.symm
          refine Or.inr ⟨hk2, ?_⟩
          rw [@List.find?_cons_of_neg _ (fun d => d.key == l.key) log _ hpred]
          exact hf

theorem reconstruct_mem_aux (options : QueryOptions) (gen : Gen)
    (htx : options.includeTxid = false) :
    ∀ (cands : List (Option JVal × Option String × Option String))
      (st : List LogEntry × List String),
      ∀ l ∈ (cands.foldl (considerStep options gen) st).1,
        l ∈ st.1 ∨ ((l ∈ cands.filterMap fun c => parseLogEntry c.1 c.2.1 gen) ∧
          ctrlRejects options l = false ∧ tagRejects options l = false)
  | [], _, _, hl => Or.inl hl
  | c :: cands, st, l, hl => by
    rw [List.foldl_cons] at hl
    cases hp : parseLogEntry c.1 c.2.1 gen with
    | none =>
      rw [@List.filterMap_cons_none _ _ (fun c => parseLogEntry c.1 c.2.1 gen) c cands hp]
      have hl' : l ∈ (cands.foldl (considerStep options gen) st).1 := by
        rwa [show considerStep options gen st c = st by
          unfold considerStep; exact considerValue_none _ _ _ _ _ _ hp] at hl
      exact reconstruct_mem_aux options gen htx cands st l hl'
    | some log =>
      rw [@List.filterMap_cons_some _ _ (fun c => parseLogEntry c.1 c.2.1 gen) c cands log hp]
      have hrec := reconstruct_mem_aux options gen htx cands (considerStep options gen st c) l hl
      have hsub : (considerStep options gen st c).1 = st.1 ∨
          ((considerStep options gen st c).1 = st.1 ++ [log] ∧
            ctrlRejects options log = false ∧ tagRejects options log = false) := by
        unfold considerStep
        rw [considerValue_some _ _ _ _ _ _ _ hp]
        by_cases hs : st.2.contains log.key
        · rw [if_pos hs]; exact Or.inl rfl
        · rw [if_neg hs]
          by_cases hcr : ctrlRejects options log
          · rw [if_pos hcr]; exact Or.inl rfl
          · rw [if_neg hcr]
            by_cases htr : tagRejects options log
            · rw [if_pos htr]; exact Or.inl rfl
            · rw [if_neg htr]
              refine Or.inr ⟨?_, Bool.eq_false_iff.mpr hcr, Bool.eq_false_iff.mpr htr⟩
              rw [pushedEntry_of_not_includeTxid _ _ _ htx]
      rcases hrec with h | ⟨hmem, hfacts⟩
      · rcases hsub with he | ⟨he, hcr, htr⟩
        · rw [he] at h
          exact Or.inl h
        · rw [he] at h
          rcases List.mem_append.mp h with h | h
          · exact Or.inl h
          · simp only [List.mem_singleton] at h
            subst h
            exact Or.inr ⟨by simp, hcr, htr⟩
      · exact Or.inr ⟨List.mem_cons_of_mem _ hmem, hfacts⟩

theorem listDay_mem (rows : List KVRecord) (options : QueryOptions) (gen : Gen)
    (htx : options.includeTxid = false) :
    ∀ e ∈ listDay rows options gen,
      e ∈ decodedStream rows gen ∧ ctrlRejects options e = false ∧
        tagRejects options e = false := by
  intro e he
  have h1 : e ∈ sortStage options (reconstructFiltered rows options gen) :=
    (listDay_sublist rows options gen).subset he
  have h2 : e ∈ reconstructFiltered rows options gen :=
    (sortStage_perm options _).mem_iff.mp h1
  unfold reconstructFiltered at h2
  rw [foldl_processRecord_eq] at h2
  rcases reconstruct_mem_aux options gen htx (candStream rows) ([], []) e h2 with h | h
  · simp at h
  · exact ⟨h.1, h.2⟩

end Gloss

namespace Gloss

theorem normalizeLog_fields (raw : JVal) (controller : Option String) (gen : Gen)
    (log : LogEntry) (h : normalizeLog raw controller gen = some log) :
    log.txid = none ∧
    log.controller = (match raw.getField "controller" with
      | some (.str s) => some s
      | _ => controller) := by
  cases raw with
  | null => exact absurd h (by simp [normalizeLog])
  | bool b => exact absurd h (by simp [normalizeLog])
  | num n => exact absurd h (by simp [normalizeLog])
  | str s => exact absurd h (by simp [normalizeLog])
  | arr elems => exact absurd h (by simp [normalizeLog])
  | obj fields =>
    simp only [normalizeLog] at h
    split at h
    · exact absurd h (by simp)
    · rw [Option.some.injEq] at h
      subst h
      exact ⟨rfl, rfl⟩

theorem parseLogEntry_via_normalize (value : Option JVal) (controller : Option String)
    (gen : Gen) (log : LogEntry) (h : parseLogEntry value controller gen = some log) :
    ∃ raw, normalizeLog raw controller gen = some log := by
  cases value with
  | none => exact absurd h (by simp [parseLogEntry])
  | some parsed =>
    cases parsed <;> simp only [parseLogEntry] at h <;> try exact absurd h (by simp)
    case arr elems =>
      split at h
      · split at h
        · exact absurd h (by simp)
        · exact ⟨_, h⟩
      · exact ⟨_, h⟩
    case obj fields =>
      split at h
      · split at h
        · exact absurd h (by simp)
        · exact ⟨_, h⟩
      · exact ⟨_, h⟩

theorem parseLogEntry_txid (value : Option JVal) (controller : Option String)
    (gen : Gen) (log : LogEntry) (h : parseLogEntry value controller gen = some log) :
    log.txid = none := by
  rcases parseLogEntry_via_normalize value controller gen log h with ⟨raw, hr⟩
  exact (normalizeLog_fields raw controller gen log hr).1

theorem ingest_none (logKey : String) (includeTxid : Bool) (gen : Gen)
    (value : Option JVal) (controller : Option String) (txid : Option String)
    (acc : List LogEntry) (h : parseLogEntry value controller gen = none) :
    ingest logKey includeTxid gen value controller txid acc = acc := by
  simp only [ingest, h]

theorem ingest_some_ne (logKey : String) (includeTxid : Bool) (gen : Gen)
    (value : Option JVal) (controller : Option String) (txid : Option String)
    (acc : List LogEntry) (log : LogEntry)
    (h : parseLogEntry value controller gen = some log) (hk : log.key ≠ logKey) :
    ingest logKey includeTxid gen value controller txid acc = acc := by
  simp only [ingest, h]
  rw [if_pos hk]

theorem ingest_some_eq (logKey : String) (gen : Gen)
    (value : Option JVal) (controller : Option String) (txid : Option String)
    (acc : List LogEntry) (log : LogEntry)
    (h : parseLogEntry value controller gen = some log) (hk : log.key = logKey) :
    ingest logKey false gen value controller txid acc = acc ++ [log] := by
  simp only [ingest, h]
  rw [if_neg (not_not_intro hk)]
  rw [if_neg (by simp)]
  rw [cloneLog_eq]

theorem ingestStep_foldl_eq (logKey : String) (gen : Gen) :
    ∀ (cands : List (Option JVal × Option String × Option String)) (acc : List LogEntry),
      cands.foldl (ingestStep logKey false gen) acc =
        acc ++ ((cands.filterMap fun c => parseLogEntry c.1 c.2.1 gen).filter
          fun d => d.key == logKey)
  | [], acc => by simp
  | c :: cands, acc => by
    rw [List.foldl_cons]
    cases hp : parseLogEntry c.1 c.2.1 gen with
    | none =>
      rw [@List.filterMap_cons_none _ _ (fun c => parseLogEntry c.1 c.2.1 gen) c cands hp]
      rw [show ingestStep logKey false gen acc c = acc from
        ingest_none logKey false gen c.1 c.2.1 c.2.2 acc hp]
      exact ingestStep_foldl_eq logKey gen cands acc
    | some log =>
      rw [@List.filterMap_cons_some _ _ (fun c => parseLogEntry c.1 c.2.1 gen) c cands log hp]
      by_cases hk : log.key = logKey
      · rw [show ingestStep logKey false gen acc c = acc ++ [log] from
          ingest_some_eq logKey gen c.1 c.2.1 c.2.2 acc log hp hk]
        rw [List.filter_cons_of_pos (by simp [hk])]
        rw [ingestStep_foldl_eq logKey gen cands (acc ++ [log])]
        simp
      · rw [show ingestStep logKey false gen acc c = acc from
          ingest_some_ne logKey false gen c.1 c.2.1 c.2.2 acc log hp hk]
        rw [List.filter_cons_of_neg (by simp [hk])]
        exact ingestStep_foldl_eq logKey gen cands acc

theorem getLogHistory_record_eq (logKey : String) (includeTxid : Bool) (gen : Gen)
    (acc : List LogEntry) (record : KVRecord) :
    (record.history.foldl
      (fun acc2 past => ingest logKey includeTxid gen past record.controller record.txid acc2)
      (ingest logKey includeTxid gen record.value record.controller record.txid acc)) =
      (recordCands record).foldl (ingestStep logKey includeTxid gen) acc := by
  simp only [recordCands, ingestStep, List.foldl_cons, List.foldl_map]

theorem getLogHistory_foldl_eq (logKey : String) (includeTxid : Bool) (gen : Gen) :
    ∀ (rows : List KVRecord) (acc : List LogEntry),
      rows.foldl
        (fun acc record =>
          record.history.foldl
            (fun acc2 past => ingest logKey includeTxid gen past record.controller record.txid acc2)
            (ingest logKey includeTxid gen record.value record.controller record.txid acc))
        acc =
        (candStream rows).foldl (ingestStep logKey includeTxid gen) acc
  | [], _ => rfl
  | r :: rows, acc => by
    simp only [List.foldl_cons, candStream, List.flatMap_cons, List.foldl_append]
    rw [getLogHistory_record_eq, getLogHistory_foldl_eq logKey includeTxid gen rows]
    simp only [candStream]

theorem getLogHistory_eq (rows : List KVRecord) (logKey : String) (gen : Gen) :
    getLogHistory rows logKey false gen = jsSort histLe (histCandidates rows logKey gen) := by
  unfold getLogHistory
  rw [getLogHistory_foldl_eq, ingestStep_foldl_eq]
  simp only [List.nil_append]
  rfl

end Gloss

namespace Gloss

/-- Claim C2: for every entry and every non-empty tag filter, the tag filter
of `listDay` matches under any-of semantics by default (true iff the entry's
tag set intersects the filter set) and under all-of semantics when
`tagQueryMode = 'all'` (true iff the filter set is a subset of the entry's
tag set); an entry with no tags never matches a non-empty tag filter in
either mode. -/
theorem matchesTagFilter_semantics (tags filter : List String) (mode : Option String)
    (hfil : filter ≠ []) :
    (mode ≠ some "all" → (matchesTagFilter tags filter mode = true ↔ ∃ t ∈ tags, t ∈ filter)) ∧
    (matchesTagFilter tags filter (some "all") = true ↔ ∀ t ∈ filter, t ∈ tags) ∧
    (tags = [] → matchesTagFilter tags filter mode = false) := by
  refine ⟨?_, ?_, ?_⟩
  · intro hm
    unfold matchesTagFilter
    by_cases he : tags.isEmpty
    · rw [if_pos he]
      rw [List.isEmpty_iff] at he
      subst he
      simp
    · rw [if_neg he, if_neg hm]
      simp [List.any_eq_true, List.elem_iff]
  · unfold matchesTagFilter
    by_cases he : tags.isEmpty
    · rw [if_pos he]
      rw [List.isEmpty_iff] at he
      subst he
      constructor
      · intro hf
        exact absurd hf (by simp)
      · intro hall
        rcases List.exists_mem_of_ne_nil filter hfil with ⟨t, ht⟩
        exact absurd (hall t ht) (by simp)
    · rw [if_neg he, if_pos rfl]
      simp [List.all_eq_true, List.elem_iff]
  · intro ht
    subst ht
    rfl

/-- Claim C2 witness: the spec's own examples, `{x,y}` against filter
`{x,z}` any-of and all-of, filter `{x,y}` all-of, and the untagged entry. -/
theorem matchesTagFilter_semantics_witness :
    matchesTagFilter ["x", "y"] ["x", "z"] none = true ∧
    matchesTagFilter ["x", "y"] ["x", "z"] (some "all") = false ∧
    matchesTagFilter ["x", "y"] ["x", "y"] (some "all") = true ∧
    matchesTagFilter [] ["x", "z"] none = false := by
  have h1 := matchesTagFilter_semantics ["x", "y"] ["x", "z"] none (by decide)
  have h2 := matchesTagFilter_semantics ["x", "y"] ["x", "y"] (some "all") (by decide)
  have h3 := matchesTagFilter_semantics [] ["x", "z"] none (by decide)
  refine ⟨(h1.1 (by decide)).mpr ⟨"x", by decide, by decide⟩, ?_, h2.2.1.mpr (by decide),
    h3.2.2 rfl⟩
  have hne : ¬ matchesTagFilter ["x", "y"] ["x", "z"] (some "all") = true :=
    fun hh => absurd (h1.2.1.mp hh) (by decide)
  exact Bool.eq_false_iff.mpr hne

/-- Claim C10: a raw value decoding to a legacy day-chain container (an
object whose `logs` field is an array) yields at most one canonical entry,
the normalization of the first element of `logs`, and null when the array is
empty; later elements are never surfaced. -/
theorem parseLogEntry_dayChain (fields : List (String × JVal)) (logs : List JVal)
    (controller : Option String) (gen : Gen)
    (h : (JVal.obj fields).getField "logs" = some (.arr logs)) :
    parseLogEntry (some (.obj fields)) controller gen =
      (match logs with
       | [] => none
       | first :: _ => normalizeLog first controller gen) := by
  cases logs with
  | nil => simp [parseLogEntry, h]
  | cons first rest => simp [parseLogEntry, h]

/-- Claim C10 witness: a two-element chain surfaces only the first element's
normalization. -/
theorem parseLogEntry_dayChain_witness :
    parseLogEntry (some jChain) (some "me") g0 = normalizeLog jA (some "me") g0 ∧
    parseLogEntry (some jChain) (some "me") g0 = some eA := by
  have h := parseLogEntry_dayChain
    [("key", .str "2025-01-02"), ("logs", .arr [jA, jB])] [jA, jB] (some "me") g0 rfl
  exact ⟨h, by rw [show jChain = JVal.obj
    [("key", .str "2025-01-02"), ("logs", .arr [jA, jB])] from rfl, h]; decide⟩

/-- Claim C5 counterexample: `normalizeLog` resolves a conflict between the
embedded controller `A` and the physical record controller `B` in favour of
the embedded `A`, not the physical record's `B` as claimed. -/
theorem normalizeLog_controller_cex :
    normalizeLog jC5 (some "B") g0 = some eC5 ∧ eC5.controller = some "A" ∧
    eC5.controller ≠ some "B" := by
  exact ⟨by decide, by decide, by decide⟩

/-- Claim C5 (amended): decoding resolves a controller conflict in favour of
the embedded controller; the physical record's controller is used only when
the embedded one is absent or not a string; and this resolution is uniform
because every decode path (listDay current values and history values,
getLogHistory) surfaces only entries produced by
`parseLogEntry`/`normalizeLog`. -/
theorem controller_resolution :
    (∀ (raw : JVal) (c : String) (recCtrl : Option String) (gen : Gen) (log : LogEntry),
      raw.getField "controller" = some (.str c) →
      normalizeLog raw recCtrl gen = some log → log.controller = some c) ∧
    (∀ (raw : JVal) (recCtrl : Option String) (gen : Gen) (log : LogEntry),
      (∀ s : String, raw.getField "controller" ≠ some (.str s)) →
      normalizeLog raw recCtrl gen = some log → log.controller = recCtrl) ∧
    (∀ (value : Option JVal) (recCtrl : Option String) (gen : Gen) (log : LogEntry),
      parseLogEntry value recCtrl gen = some log →
      ∃ raw, normalizeLog raw recCtrl gen = some log) ∧
    (∀ (rows : List KVRecord) (options : QueryOptions) (gen : Gen),
      options.includeTxid = false →
      ∀ e ∈ listDay rows options gen, e ∈ decodedStream rows gen) ∧
    (∀ (rows : List KVRecord) (logKey : String) (gen : Gen),
      ∀ e ∈ getLogHistory rows logKey false gen, e ∈ histCandidates rows logKey gen) := by
  refine ⟨?_, ?_, ?_, ?_, ?_⟩
  · intro raw c recCtrl gen log hget hn
    have := (normalizeLog_fields raw recCtrl gen log hn).2
    rw [hget] at this
    exact this
  · intro raw recCtrl gen log hget hn
    have := (normalizeLog_fields raw recCtrl gen log hn).2
    cases hg : raw.getField "controller" with
    | none => rw [hg] at this; exact this
    | some jv =>
      cases jv with
      | str s => exact absurd hg (hget s)
      | null => rw [hg] at this; exact this
      | bool b => rw [hg] at this; exact this
      | num n => rw [hg] at this; exact this
      | arr elems => rw [hg] at this; exact this
      | obj fields => rw [hg] at this; exact this
  · intro value recCtrl gen log h
    exact parseLogEntry_via_normalize value recCtrl gen log h
  · intro rows options gen htx e he
    exact (listDay_mem rows options gen htx e he).1
  · intro rows logKey gen e he
    rw [getLogHistory_eq] at he
    exact mem_jsSort.mp he

/-- Claim C5 witness: the embedded controller `A` of `jC5` wins over the
record controller `B`. -/
theorem controller_resolution_witness : eC5.controller = some "A" :=
  controller_resolution.1 jC5 "A" (some "B") g0 eC5 rfl (by decide)

/-- Claim C6 counterexample: `removeEntry` does not look the entry up at all;
on a store with no entries whatsoever (so the target key certainly has no
entry), it still returns `true` whenever the store's day-level remove
succeeds, where the claim demands `false`. -/
theorem removeEntry_cex :
    listDay [] { controller := some "me" } g0 = [] ∧
    removeEntry "2025-01-02/000000-000aaaa" (Except.ok ()) = true :=
  ⟨rfl, rfl⟩

/-- Claim C6 (amended): an update call on a key whose entry does not exist,
and an update call on a key whose entry exists but belongs to a different
identity, both return `undefined` and write nothing to the store, so the two
cases are indistinguishable and the stored entry is untouched; `removeEntry`,
by contrast, performs no per-entry lookup and simply reports the day-level
store remove outcome. -/
theorem updateEntryByKey_negative (rows : List KVRecord) (identityKey logKey newText : String)
    (options : CreateLogOptions) (gen : Gen) (nowIso : String)
    (h : ∀ e ∈ decodedStream rows gen, e.key = logKey → e.controller ≠ some identityKey) :
    updateEntryByKey rows identityKey logKey newText options gen nowIso = (none, []) ∧
    (∀ (k : String) (outcome : Except Unit Unit), removeEntry k outcome = removeDay outcome) := by
  constructor
  · have hnone : (listDay rows { controller := some identityKey } gen).find?
        (fun log => log.key == logKey) = none := by
      cases hf : (listDay rows { controller := some identityKey } gen).find?
          (fun log => log.key == logKey) with
      | none => rfl
      | some current =>
        have hmem := List.mem_of_find?_eq_some hf
        have hkey : current.key = logKey := by
          simpa [beq_iff_eq] using List.find?_some hf
        have hprops := listDay_mem rows { controller := some identityKey } gen rfl current hmem
        have hctrl : current.controller = some identityKey :=
          (ctrlRejects_false_iff { controller := some identityKey } current identityKey rfl).mp
            hprops.2.1
        exact absurd hctrl (h current hprops.1 hkey)
    simp only [updateEntryByKey, hnone]
  · intro k outcome
    rfl

/-- Claim C6 witness: updating a key owned by `other` as `me` yields
`undefined` and no store write. -/
theorem updateEntryByKey_negative_witness :
    updateEntryByKey rowsC6 "me" "2025-01-02/000006-000aaaa" "x" {} g0 now7 = (none, []) :=
  (updateEntryByKey_negative rowsC6 "me" "2025-01-02/000006-000aaaa" "x" {} g0 now7
    (by decide)).1

end Gloss

namespace Gloss

/-- Claim C7 counterexample: updating an owned entry whose prior version has
no `tags`/`assets` fields succeeds, but the updated entry's tags become the
empty list rather than inheriting the prior version's absent tags. -/
theorem updateEntryByKey_inherit_cex :
    updateEntryByKey rowsC7 "me" kC7 "new" {} g0 now7 =
      (some uC7, [⟨dayKey "2025-01-02", uC7, ["2025-01-02"]⟩]) ∧
    (listDay rowsC7 { controller := some "me" } g0).find? (fun log => log.key == kC7) =
      some curC7 ∧
    curC7.tags = none ∧ uC7.tags = some [] ∧ uC7.tags ≠ curC7.tags := by
  exact ⟨by decide, by decide, rfl, rfl, by decide⟩

/-- Claim C7 (amended): a successful update of an existing owned entry keeps
the key byte-identical to the requested key and to the prior version's key,
keeps the controller and txid, stamps the new `at` and text, takes
tags/assets from the options when given, inherits them from the prior
version when the prior version has them, and otherwise sets them to the
empty list. -/
theorem updateEntryByKey_frame (rows : List KVRecord) (identityKey logKey newText : String)
    (options : CreateLogOptions) (gen : Gen) (nowIso : String)
    (current updated : LogEntry) (writes : List StoreWrite)
    (hfind : (listDay rows { controller := some identityKey } gen).find?
      (fun log => log.key == logKey) = some current)
    (hupd : updateEntryByKey rows identityKey logKey newText options gen nowIso =
      (some updated, writes)) :
    updated.key = logKey ∧ current.key = logKey ∧
    updated.controller = current.controller ∧ updated.txid = current.txid ∧
    updated.at_ = nowIso ∧ updated.text = newText ∧
    (∀ t, options.tags = some t → updated.tags = some t) ∧
    (options.tags = none → ∀ t, current.tags = some t → updated.tags = some t) ∧
    (options.tags = none → current.tags = none → updated.tags = some []) ∧
    (∀ a, options.assets = some a → updated.assets = some a) ∧
    (options.assets = none → ∀ a, current.assets = some a → updated.assets = some a) ∧
    (options.assets = none → current.assets = none → updated.assets = some []) := by
  simp only [updateEntryByKey, hfind] at hupd
  have hu : updated = ⟨logKey, nowIso, newText,
      some (options.tags.getD (current.tags.getD [])),
      some (options.assets.getD (current.assets.getD [])),
      some identityKey, none⟩ := by
    have := congrArg Prod.fst hupd
    simpa using this.symm
  have hmem := List.mem_of_find?_eq_some hfind
  have hkey : current.key = logKey := by
    simpa [beq_iff_eq] using List.find?_some hfind
  have hprops := listDay_mem rows { controller := some identityKey } gen rfl current hmem
  have hctrl : current.controller = some identityKey :=
    (ctrlRejects_false_iff { controller := some identityKey } current identityKey rfl).mp
      hprops.2.1
  have htxid : current.txid = none := by
    rcases List.mem_filterMap.mp hprops.1 with ⟨cand, _, hparse⟩
    exact parseLogEntry_txid _ _ _ _ hparse
  subst hu
  refine ⟨rfl, hkey, by rw [hctrl], by rw [htxid], rfl, rfl, ?_, ?_, ?_, ?_, ?_, ?_⟩
  · intro t ht; simp [ht]
  · intro hnone t ht; simp [hnone, ht]
  · intro hnone hct; simp [hnone, hct]
  · intro a ha; simp [ha]
  · intro hnone a ha; simp [hnone, ha]
  · intro hnone hca; simp [hnone, hca]

/-- Claim C7 witness: the update fixture keeps the key and the controller. -/
theorem updateEntryByKey_frame_witness :
    uC7.key = kC7 ∧ uC7.controller = curC7.controller := by
  have h := updateEntryByKey_frame rowsC7 "me" kC7 "new" {} g0 now7 curC7 uC7
    [⟨dayKey "2025-01-02", uC7, ["2025-01-02"]⟩] (by decide) (by decide)
  exact ⟨h.1, h.2.2.1⟩

/-- Claim C1: for every batch of store records, the entry list returned by
`listDay` contains at most one `LogEntry` per distinct key, and (with no
filters requested) the entry kept for a key is the first decoded occurrence
in encounter order — current value before history, record order otherwise. -/
theorem listDay_dedup (rows : List KVRecord) (options : QueryOptions) (gen : Gen) :
    ((listDay rows options gen).map LogEntry.key).Nodup ∧
    (options.controller = none → tagFilterOf options = none → options.includeTxid = false →
      ∀ e ∈ listDay rows options gen,
        (decodedStream rows gen).find? (fun d => d.key == e.key) = some e) := by
  constructor
  · have hn := reconstructFiltered_nodup rows options gen
    have hperm := ((sortStage_perm options (reconstructFiltered rows options gen)).map
      LogEntry.key)
    have hsorted : ((sortStage options (reconstructFiltered rows options gen)).map
        LogEntry.key).Nodup := hperm.symm.nodup hn
    exact hsorted.sublist ((listDay_sublist rows options gen).map LogEntry.key)
  · intro hc htf htx e he
    have h1 : e ∈ reconstructFiltered rows options gen :=
      (sortStage_perm options _).mem_iff.mp ((listDay_sublist rows options gen).subset he)
    have h2 : e ∈ ((candStream rows).foldl (considerStep options gen) ([], [])).1 := by
      unfold reconstructFiltered at h1
      rwa [foldl_processRecord_eq] at h1
    rcases reconstruct_first_aux options gen hc htf htx (candStream rows) ([], []) e h2 with
      h | ⟨_, hf⟩
    · simp at h
    · unfold decodedStream
      exact hf

/-- Claim C1 witness: a record whose history repeats its current value (an
unmodified re-read) yields exactly one logical entry, the first decoded
occurrence. -/
theorem listDay_dedup_witness :
    ((listDay w1rows {} g0).map LogEntry.key).Nodup ∧
    (decodedStream w1rows g0).find? (fun d => d.key == e1.key) = some e1 :=
  ⟨(listDay_dedup w1rows {} g0).1,
   (listDay_dedup w1rows {} g0).2 rfl rfl rfl e1 (by decide)⟩

/-- The slice `[3, 3 + 4)` of a ten-element list is exactly its elements at
indices 3, 4, 5 and 6. -/
theorem spec_example (l : List LogEntry) (h : l.length = 10) :
    specPaginate 3 (some 4) l =
      [l.get ⟨3, by omega⟩, l.get ⟨4, by omega⟩, l.get ⟨5, by omega⟩, l.get ⟨6, by omega⟩] := by
  rcases l with _ | ⟨a, _ | ⟨b, _ | ⟨c, _ | ⟨d, _ | ⟨e, _ | ⟨f, _ | ⟨g, _ | ⟨x, _ | ⟨i,
    _ | ⟨j, rest⟩⟩⟩⟩⟩⟩⟩⟩⟩⟩ <;>
    simp only [List.length_cons, List.length_nil] at h
  all_goals first
    | omega
    | (have hrest : rest = [] := List.length_eq_zero.mp (by omega)
       subst hrest
       rfl)

/-- Claim C3: `listDay` is exactly filter-then-sort-then-paginate, the
pagination stage being the slice `[skip, skip + limit)` of the filtered
sorted list with `skip` clamped to `≥ 0` and an absent or non-positive limit
meaning no limit; in particular for 10 entries sorted ascending, skip 3 and
limit 4 yield the entries at sorted indices 3, 4, 5 and 6. -/
theorem listDay_pipeline (rows : List KVRecord) (options : QueryOptions) (gen : Gen) :
    listDay rows options gen =
      specPaginate (options.skip.getD 0) options.limit
        (sortStage options (reconstructFiltered rows options gen)) ∧
    (∀ (h10 : (sortStage options (reconstructFiltered rows options gen)).length = 10),
      options.skip = some 3 → options.limit = some 4 →
      listDay rows options gen =
        [(sortStage options (reconstructFiltered rows options gen)).get ⟨3, by omega⟩,
         (sortStage options (reconstructFiltered rows options gen)).get ⟨4, by omega⟩,
         (sortStage options (reconstructFiltered rows options gen)).get ⟨5, by omega⟩,
         (sortStage options (reconstructFiltered rows options gen)).get ⟨6, by omega⟩]) := by
  refine ⟨listDay_eq rows options gen, ?_⟩
  intro h10 hskip hlimit
  rw [listDay_eq rows options gen, hskip, hlimit]
  exact spec_example _ h10

/-- Claim C3 witness: the ten-entry fixture with skip 3 and limit 4. -/
theorem listDay_pipeline_witness :
    listDay rows10 opts3 g0 =
      [(sortStage opts3 (reconstructFiltered rows10 opts3 g0)).get ⟨3, by decide⟩,
       (sortStage opts3 (reconstructFiltered rows10 opts3 g0)).get ⟨4, by decide⟩,
       (sortStage opts3 (reconstructFiltered rows10 opts3 g0)).get ⟨5, by decide⟩,
       (sortStage opts3 (reconstructFiltered rows10 opts3 g0)).get ⟨6, by decide⟩] :=
  (listDay_pipeline rows10 opts3 g0).2 (by decide) rfl rfl

end Gloss

namespace Gloss

theorem histLe_of_at (a b : LogEntry) (ha : a.at_ ≠ "") (hb : b.at_ ≠ "") :
    histLe a b = true ↔ jsStrLt a.at_ b.at_ = false := by
  unfold histLe histCmp
  rw [if_pos ⟨ha, hb⟩]
  by_cases h1 : jsStrLt b.at_ a.at_ = true
  · rw [if_pos h1]
    simp [jsStrLt_asymm h1]
  · rw [if_neg h1]
    by_cases h2 : jsStrLt a.at_ b.at_ = true
    · rw [if_pos h2]
      simp [h2]
    · rw [if_neg h2]
      simp [Bool.eq_false_iff.mpr h2]

theorem histLe_total_of_at (a b : LogEntry) (ha : a.at_ ≠ "") (hb : b.at_ ≠ "") :
    histLe a b = true ∨ histLe b a = true := by
  by_cases h : jsStrLt a.at_ b.at_ = true
  · exact Or.inr ((histLe_of_at b a hb ha).mpr (jsStrLt_asymm h))
  · exact Or.inl ((histLe_of_at a b ha hb).mpr (Bool.eq_false_iff.mpr h))

theorem histLe_trans_of_at (a b c : LogEntry) (ha : a.at_ ≠ "") (hb : b.at_ ≠ "")
    (hc : c.at_ ≠ "") (hab : histLe a b = true) (hbc : histLe b c = true) :
    histLe a c = true := by
  have h1 := (histLe_of_at a b ha hb).mp hab
  have h2 := (histLe_of_at b c hb hc).mp hbc
  refine (histLe_of_at a c ha hc).mpr ?_
  by_cases h3 : jsStrLt a.at_ c.at_ = true
  · exfalso
    by_cases h4 : jsStrLt b.at_ a.at_ = true
    · exact absurd (jsStrLt_trans h4 h3) (by simp [h2])
    · have : a.at_ = b.at_ := jsStrLt_connex h1 (Bool.eq_false_iff.mpr h4)
      rw [this] at h3
      exact absurd h3 (by simp [h2])
  · exact Bool.eq_false_iff.mpr h3

/-- Claim C4 counterexample: a version with an empty `at` mixed among
versions with proper timestamps makes the comparator report ties against
everything, and the returned order is not newest first — the version at
`...01.000Z` precedes the strictly newer version at `...02.000Z`. -/
theorem getLogHistory_cex :
    (getLogHistory rowsC4 kC4 false g0).map LogEntry.at_ =
      ["2025-01-02T00:00:01.000Z", "", "2025-01-02T00:00:02.000Z"] ∧
    jsStrLt "2025-01-02T00:00:01.000Z" "2025-01-02T00:00:02.000Z" = true := by
  exact ⟨by decide, by decide⟩

/-- Claim C4 (amended): `getLogHistory` keeps exactly the decoded versions
whose key equals the requested key (empty when nothing decodes), and returns
them sorted newest first by `at` provided every kept version carries a
nonempty `at`; among versions with identical or missing `at` the comparator
reports a tie, so their relative order is the stable sort's encounter order —
the reverse key comparison applied when an `at` is missing never
discriminates, because all kept versions share the requested key. -/
theorem getLogHistory_amended (rows : List KVRecord) (logKey : String) (gen : Gen) :
    (∀ e ∈ getLogHistory rows logKey false gen, e.key = logKey) ∧
    (getLogHistory rows logKey false gen).Perm (histCandidates rows logKey gen) ∧
    ((∀ e ∈ histCandidates rows logKey gen, e.at_ ≠ "") →
      (getLogHistory rows logKey false gen).Pairwise
        (fun a b => jsStrLt a.at_ b.at_ = false)) ∧
    (histCandidates rows logKey gen = [] → getLogHistory rows logKey false gen = []) := by
  have heq := getLogHistory_eq rows logKey gen
  refine ⟨?_, ?_, ?_, ?_⟩
  · intro e he
    rw [heq] at he
    have hp := List.of_mem_filter (mem_jsSort.mp he)
    simpa [beq_iff_eq] using hp
  · rw [heq]
    exact jsSort_perm _ _
  · intro hat
    rw [heq]
    have hsorted := @jsSort_pairwise _ histLe (fun e => e.at_ ≠ "")
      (fun a b pa pb => histLe_total_of_at a b pa pb)
      (fun a b c pa pb pc hab hbc => histLe_trans_of_at a b c pa pb pc hab hbc)
      (histCandidates rows logKey gen) hat
    exact List.Pairwise.imp_of_mem
      (fun {a b} hma hmb hR =>
        (histLe_of_at a b (hat a (mem_jsSort.mp hma)) (hat b (mem_jsSort.mp hmb))).mp hR)
      hsorted
  · intro hnil
    rw [heq, hnil]
    rfl

/-- Claim C4 witness: two versions with proper timestamps come back newest
first, as a permutation of the decoded key-filtered versions. -/
theorem getLogHistory_amended_witness :
    (getLogHistory rowsH kC4 false g0).Pairwise (fun a b => jsStrLt a.at_ b.at_ = false) ∧
    (getLogHistory rowsH kC4 false g0).Perm (histCandidates rowsH kC4 g0) :=
  ⟨(getLogHistory_amended rowsH kC4 g0).2.2.1 (by decide),
   (getLogHistory_amended rowsH kC4 g0).2.1⟩

end Gloss

namespace SrcV

open Gloss

theorem scanPages_sublist (store : List KVRecord) (keyPre : String) (pageSize : Nat)
    (want : Option Nat) :
    ∀ (fuel skip : Nat) (out : List LogEntry),
      ∃ X, scanPages store keyPre pageSize want fuel skip out = out ++ X ∧
        X.Sublist ((store.drop skip).filterMap (consider keyPre))
  | 0, skip, out => ⟨[], by simp [scanPages], List.nil_sublist _⟩
  | fuel + 1, skip, out => by
    by_cases hlen : ((store.drop skip).take pageSize).length = 0
    · refine ⟨[], ?_, List.nil_sublist _⟩
      simp [scanPages, hlen]
    · have hdecomp : store.drop skip = (store.drop skip).take pageSize ++
          (store.drop skip).drop ((store.drop skip).take pageSize).length := by
        rw [List.length_take]
        by_cases hp : pageSize ≤ (store.drop skip).length
        · rw [Nat.min_eq_left hp]
          exact (List.take_append_drop _ _).symm
        · rw [Nat.min_eq_right (by omega), List.drop_length, List.append_nil,
            List.take_of_length_le (by omega)]
      have hsplit : (store.drop skip).filterMap (consider keyPre) =
          ((store.drop skip).take pageSize).filterMap (consider keyPre) ++
            (store.drop (skip + ((store.drop skip).take pageSize).length)).filterMap
              (consider keyPre) := by
        nth_rewrite 1 [hdecomp]
        rw [List.filterMap_append, List.drop_drop]
      have hhead : (((store.drop skip).take pageSize).filterMap (consider keyPre)).Sublist
          ((store.drop skip).filterMap (consider keyPre)) :=
        List.Sublist.filterMap _ (List.take_sublist _ _)
      cases want with
      | some w =>
        rw [show scanPages store keyPre pageSize (some w) (fuel + 1) skip out =
          (if ((store.drop skip).take pageSize).length = 0 then out
           else
             if w ≤ (out ++ ((store.drop skip).take pageSize).filterMap
                 (consider keyPre)).length then
               out ++ ((store.drop skip).take pageSize).filterMap (consider keyPre)
             else
               scanPages store keyPre pageSize (some w) fuel
                 (skip + ((store.drop skip).take pageSize).length)
                 (out ++ ((store.drop skip).take pageSize).filterMap (consider keyPre)))
          from rfl]
        rw [if_neg hlen]
        by_cases hw : w ≤ (out ++ ((store.drop skip).take pageSize).filterMap
            (consider keyPre)).length
        · refine ⟨((store.drop skip).take pageSize).filterMap (consider keyPre),
            by rw [if_pos hw], hhead⟩
        · rw [if_neg hw]
          obtain ⟨X, hX, hsub⟩ := scanPages_sublist store keyPre pageSize (some w) fuel
            (skip + ((store.drop skip).take pageSize).length)
            (out ++ ((store.drop skip).take pageSize).filterMap (consider keyPre))
          refine ⟨((store.drop skip).take pageSize).filterMap (consider keyPre) ++ X, ?_, ?_⟩
          · rw [hX, List.append_assoc]
          · rw [hsplit]
            exact List.Sublist.append (List.Sublist.refl _) hsub
      | none =>
        rw [show scanPages store keyPre pageSize none (fuel + 1) skip out =
          (if ((store.drop skip).take pageSize).length = 0 then out
           else
             scanPages store keyPre pageSize none fuel
               (skip + ((store.drop skip).take pageSize).length)
               (out ++ ((store.drop skip).take pageSize).filterMap (consider keyPre)))
          from rfl]
        rw [if_neg hlen]
        obtain ⟨X, hX, hsub⟩ := scanPages_sublist store keyPre pageSize none fuel
          (skip + ((store.drop skip).take pageSize).length)
          (out ++ ((store.drop skip).take pageSize).filterMap (consider keyPre))
        refine ⟨((store.drop skip).take pageSize).filterMap (consider keyPre) ++ X, ?_, ?_⟩
        · rw [hX, List.append_assoc]
        · rw [hsplit]
          exact List.Sublist.append (List.Sublist.refl _) hsub

theorem listDay_empty_of_no_candidates (store : List KVRecord) (date identity : String)
    (h : ownCandidates store date identity = []) (options : QueryOptions)
    (hctrl : options.controller = some identity) (htags : options.tags = none) :
    listDay store date options = [] := by
  obtain ⟨X, hX, hsub⟩ := scanPages_sublist store ("entry/" ++ date ++ "/")
    ((max 1 (min (options.pageSize.getD 500) 2000)).toNat)
    (match options.limit with
     | some l => if 0 < l then some l.toNat else none
     | none => none)
    ((max 1 (options.maxPages.getD 20)).toNat)
    ((max 0 (options.skip.getD 0)).toNat) []
  have hXfull : X.Sublist (store.filterMap (consider ("entry/" ++ date ++ "/"))) :=
    hsub.trans (List.Sublist.filterMap _ (List.drop_sublist _ _))
  have hfil : (X.filter fun entry => entry.controller == some identity) = [] := by
    rw [← List.sublist_nil, ← h]
    exact List.Sublist.filter _ hXfull
  simp only [listDay, hctrl, htags, hX, List.nil_append, hfil]
  cases options.limit <;> split <;> simp [jsSort]

theorem removeDayLoop_empty (store : List KVRecord) (date identity : String)
    (removeOk : String → Bool)
    (hpage : ∀ skip : Nat, listDay store date
      { controller := some identity, limit := some 500, skip := some (skip : Int),
        pageSize := some 500, maxPages := some 1, sortOrder := some "asc" } = []) :
    ∀ (fuel skip : Nat) (removedAny : Bool),
      removeDayLoop store date identity removeOk fuel skip removedAny = .ok removedAny
  | 0, _, _ => rfl
  | fuel + 1, skip, removedAny => by
    simp [removeDayLoop, hpage skip]

theorem removeDayLoop_allOk (store : List KVRecord) (date identity : String)
    (removeOk : String → Bool) (hok : ∀ k, removeOk k = true) :
    ∀ (fuel skip : Nat),
      removeDayLoop store date identity removeOk fuel skip true = .ok true
  | 0, _ => rfl
  | fuel + 1, skip => by
    by_cases hp : (listDay store date
        { controller := some identity, limit := some 500, skip := some (skip : Int),
          pageSize := some 500, maxPages := some 1, sortOrder := some "asc" }).length = 0
    · simp [removeDayLoop, hp]
    · have hall : (listDay store date
          { controller := some identity, limit := some 500, skip := some (skip : Int),
            pageSize := some 500, maxPages := some 1, sortOrder := some "asc" }).all
          (fun entry => removeOk ("entry/" ++ entry.key)) = true :=
        List.all_eq_true.mpr fun entry _ => hok _
      simp [removeDayLoop, hp, hall, removeDayLoop_allOk store date identity removeOk hok
        fuel (skip + 500)]

end SrcV

namespace SrcV

open Gloss

/-- Claim C9 counterexample: with one owned entry for the date, a store whose
remove raises makes the paging `removeDay` propagate the error instead of
swallowing it into `false`. -/
theorem removeDay_error_cex :
    removeDay storeC9 "2025-01-02" "me" (fun _ => false) = Except.error () := by
  rfl

/-- Claim C9 (amended): the paging `removeDay` returns `ok false` when the
caller has no entries for the date and `ok true` when its first page of own
entries is nonempty and every store remove succeeds — so its boolean reports
whether at least one removal occurred — but a store remove error propagates
out of it uncaught; only the day-key `removeDay` variant swallows store
errors, reporting `false` on a raise and `true` exactly when the single
day-key remove succeeded. -/
theorem removeDay_semantics :
    (∀ (store : List KVRecord) (date identity : String) (removeOk : String → Bool),
      ownCandidates store date identity = [] →
      removeDay store date identity removeOk = .ok false) ∧
    (∀ (store : List KVRecord) (date identity : String) (removeOk : String → Bool),
      (∀ k, removeOk k = true) →
      listDay store date
        { controller := some identity, limit := some 500, skip := some ((0 : Nat) : Int),
          pageSize := some 500, maxPages := some 1, sortOrder := some "asc" } ≠ [] →
      removeDay store date identity removeOk = .ok true) ∧
    (Gloss.removeDay (Except.error ()) = false ∧ Gloss.removeDay (Except.ok ()) = true) := by
  refine ⟨?_, ?_, rfl, rfl⟩
  · intro store date identity removeOk h
    unfold removeDay
    exact removeDayLoop_empty store date identity removeOk
      (fun skip => listDay_empty_of_no_candidates store date identity h _ rfl rfl) _ _ _
  · intro store date identity removeOk hok hpage
    unfold removeDay
    rw [show store.length / 500 + 2 = (store.length / 500 + 1) + 1 from rfl]
    rw [show removeDayLoop store date identity removeOk ((store.length / 500 + 1) + 1) 0 false =
      (if (listDay store date
          { controller := some identity, limit := some 500, skip := some ((0 : Nat) : Int),
            pageSize := some 500, maxPages := some 1, sortOrder := some "asc" }).length = 0
       then .ok false
       else
         if (listDay store date
             { controller := some identity, limit := some 500, skip := some ((0 : Nat) : Int),
               pageSize := some 500, maxPages := some 1, sortOrder := some "asc" }).all
             (fun entry => removeOk ("entry/" ++ entry.key)) then
           removeDayLoop store date identity removeOk (store.length / 500 + 1) (0 + 500) true
         else .error ()) from rfl]
    rw [if_neg (by rw [List.length_eq_zero]; exact hpage)]
    rw [if_pos (List.all_eq_true.mpr fun entry _ => hok _)]
    exact removeDayLoop_allOk store date identity removeOk hok _ _

/-- Claim C9 witness: no entries yield `ok false`; one owned entry with a
succeeding remove yields `ok true`. -/
theorem removeDay_semantics_witness :
    removeDay [] "2025-01-02" "me" (fun _ => true) = Except.ok false ∧
    removeDay storeC9 "2025-01-02" "me" (fun _ => true) = Except.ok true :=
  ⟨removeDay_semantics.1 [] "2025-01-02" "me" (fun _ => true) rfl,
   removeDay_semantics.2.1 storeC9 "2025-01-02" "me" (fun _ => true) (fun _ => rfl)
     (by decide)⟩

end SrcV

namespace Gloss

theorem toNat_digitChar (d : Nat) (h : d < 10) : (Char.ofNat (48 + d)).toNat = 48 + d := by
  interval_cases d <;> decide

theorem natChars_digits (n : Nat) : ∀ c ∈ natChars n, 48 ≤ c.toNat ∧ c.toNat ≤ 57 := by
  induction n using Nat.strong_induction_on with
  | _ n ih =>
    rw [natChars]
    split
    · rename_i h
      intro c hc
      simp only [List.mem_singleton] at hc
      subst hc
      rw [toNat_digitChar n h]
      omega
    · rename_i h
      intro c hc
      rcases List.mem_append.mp hc with hc | hc
      · exact ih (n / 10) (Nat.div_lt_self (by omega) (by omega)) c hc
      · simp only [List.mem_singleton] at hc
        subst hc
        rw [toNat_digitChar (n % 10) (Nat.mod_lt _ (by omega))]
        have := Nat.mod_lt n (show 0 < 10 by omega)
        omega

theorem natChars_length_le : ∀ (w n : Nat), 0 < w → n < 10 ^ w → (natChars n).length ≤ w
  | 0, _, hw, _ => by omega
  | w + 1, n, _, h => by
    rw [natChars]
    split
    · simp
    · rename_i h10
      have hw' : 0 < w := by
        by_contra h0
        have hw0 : w = 0 := by omega
        subst hw0
        simp at h
        omega
      have hdiv : n / 10 < 10 ^ w := by
        rw [Nat.div_lt_iff_lt_mul (by omega)]
        calc n < 10 ^ (w + 1) := h
          _ = 10 ^ w * 10 := by ring
      have := natChars_length_le w (n / 10) hw' hdiv
      simp only [List.length_append, List.length_singleton]
      omega

theorem digitsVal_append_digit (l : List Char) (c : Char) :
    digitsVal (l ++ [c]) = digitsVal l * 10 + (c.toNat - 48) := by
  induction l with
  | nil => simp [digitsVal]
  | cons d l ih =>
    simp only [List.cons_append, digitsVal, List.append_eq, List.length_append,
      List.length_singleton, ih]
    ring

theorem digitsVal_natChars (n : Nat) : digitsVal (natChars n) = n := by
  induction n using Nat.strong_induction_on with
  | _ n ih =>
    rw [natChars]
    split
    · rename_i h
      simp [digitsVal, toNat_digitChar n h]
    · rename_i h
      rw [digitsVal_append_digit, ih (n / 10) (Nat.div_lt_self (by omega) (by omega)),
        toNat_digitChar (n % 10) (Nat.mod_lt _ (by omega))]
      omega

theorem digitsVal_lt (l : List Char) (h : ∀ c ∈ l, 48 ≤ c.toNat ∧ c.toNat ≤ 57) :
    digitsVal l < 10 ^ l.length := by
  induction l with
  | nil => simp [digitsVal]
  | cons c l ih =>
    simp only [digitsVal, List.length_cons]
    have hc := h c (by simp)
    have hl := ih fun d hd => h d (by simp [hd])
    calc (c.toNat - 48) * 10 ^ l.length + digitsVal l
        < (c.toNat - 48) * 10 ^ l.length + 10 ^ l.length := by omega
      _ = (c.toNat - 48 + 1) * 10 ^ l.length := by ring
      _ ≤ 10 * 10 ^ l.length := Nat.mul_le_mul_right _ (by omega)
      _ = 10 ^ (l.length + 1) := by ring

theorem pad_digits (w n : Nat) : ∀ c ∈ pad w n, 48 ≤ c.toNat ∧ c.toNat ≤ 57 := by
  intro c hc
  unfold pad padStart at hc
  rcases List.mem_append.mp hc with hc | hc
  · rw [List.eq_of_mem_replicate hc]
    exact ⟨by decide, by decide⟩
  · exact natChars_digits n c hc

theorem pad_length (w n : Nat) (hw : 0 < w) (h : n < 10 ^ w) : (pad w n).length = w := by
  unfold pad padStart
  rw [List.length_append, List.length_replicate]
  have := natChars_length_le w n hw h
  omega

theorem digitsVal_replicate_zero (k : Nat) (l : List Char) :
    digitsVal (List.replicate k '0' ++ l) = digitsVal l := by
  induction k with
  | zero => simp
  | succ k ih =>
    simp [List.replicate_succ, digitsVal, ih, show ('0' : Char).toNat = 48 from rfl]

theorem digitsVal_pad (w n : Nat) : digitsVal (pad w n) = n := by
  unfold pad padStart
  rw [digitsVal_replicate_zero, digitsVal_natChars]

theorem jsStrLtL_of_digitsVal_lt : ∀ (a b : List Char), a.length = b.length →
    (∀ c ∈ a, 48 ≤ c.toNat ∧ c.toNat ≤ 57) → (∀ c ∈ b, 48 ≤ c.toNat ∧ c.toNat ≤ 57) →
    digitsVal a < digitsVal b → jsStrLtL a b = true
  | [], [], _, _, _, hv => by simp [digitsVal] at hv
  | [], _ :: _, hlen, _, _, _ => by simp at hlen
  | _ :: _, [], hlen, _, _, _ => by simp at hlen
  | x :: xs, y :: ys, hlen, ha, hb, hv => by
    simp only [List.length_cons] at hlen
    have hlen' : xs.length = ys.length := by omega
    simp only [jsStrLtL]
    by_cases h1 : x.toNat < y.toNat
    · rw [if_pos h1]
    · rw [if_neg h1]
      by_cases h2 : y.toNat < x.toNat
      · exfalso
        simp only [digitsVal] at hv
        rw [hlen'] at hv
        have hysub : digitsVal ys < 10 ^ ys.length :=
          digitsVal_lt ys fun c hc => hb c (by simp [hc])
        have hchain : (y.toNat - 48) * 10 ^ ys.length + digitsVal ys <
            (x.toNat - 48) * 10 ^ ys.length + digitsVal xs := calc
          (y.toNat - 48) * 10 ^ ys.length + digitsVal ys
              < (y.toNat - 48) * 10 ^ ys.length + 10 ^ ys.length :=
            Nat.add_lt_add_left hysub _
          _ = (y.toNat - 48 + 1) * 10 ^ ys.length := by ring
          _ ≤ (x.toNat - 48) * 10 ^ ys.length := by
            refine Nat.mul_le_mul_right _ ?_
            have h48 : 48 ≤ y.toNat := (hb y (by simp)).1
            omega
          _ ≤ (x.toNat - 48) * 10 ^ ys.length + digitsVal xs := Nat.le_add_right _ _
        exact absurd hv (by omega)
      · rw [if_neg h2]
        refine jsStrLtL_of_digitsVal_lt xs ys hlen' (fun c hc => ha c (by simp [hc]))
          (fun c hc => hb c (by simp [hc])) ?_
        simp only [digitsVal] at hv
        rw [hlen'] at hv
        have hxy : x.toNat = y.toNat := by omega
        rw [hxy] at hv
        exact Nat.lt_of_add_lt_add_left hv

theorem pad_lt_pad (w n1 n2 : Nat) (hw : 0 < w) (h1 : n1 < n2) (h2 : n2 < 10 ^ w) :
    jsStrLtL (pad w n1) (pad w n2) = true := by
  apply jsStrLtL_of_digitsVal_lt
  · rw [pad_length w n1 hw (lt_trans h1 h2), pad_length w n2 hw h2]
  · exact pad_digits w n1
  · exact pad_digits w n2
  · rw [digitsVal_pad, digitsVal_pad]
    exact h1

theorem jsStrLtL_append_right : ∀ (p cs ds : List Char),
    jsStrLtL (p ++ cs) (p ++ ds) = jsStrLtL cs ds
  | [], _, _ => rfl
  | a :: p, cs, ds => by
    simp only [List.cons_append, jsStrLtL]
    rw [if_neg (by omega), if_neg (by omega)]
    exact jsStrLtL_append_right p cs ds

theorem jsStrLtL_cons_same (c : Char) (cs ds : List Char) :
    jsStrLtL (c :: cs) (c :: ds) = jsStrLtL cs ds := by
  simp only [jsStrLtL]
  rw [if_neg (by omega), if_neg (by omega)]

theorem jsStrLtL_append_of_lt : ∀ (as bs cs ds : List Char), as.length = bs.length →
    jsStrLtL as bs = true → jsStrLtL (as ++ cs) (bs ++ ds) = true
  | [], [], _, _, _, h => by simp [jsStrLtL] at h
  | [], _ :: _, _, _, hlen, _ => by simp at hlen
  | _ :: _, [], _, _, hlen, _ => by simp at hlen
  | a :: as, b :: bs, cs, ds, hlen, h => by
    simp only [List.length_cons] at hlen
    simp only [List.cons_append, jsStrLtL] at h ⊢
    by_cases h1 : a.toNat < b.toNat
    · rw [if_pos h1]
    · rw [if_neg h1] at h ⊢
      by_cases h2 : b.toNat < a.toNat
      · simp [h2] at h
      · rw [if_neg h2] at h ⊢
        exact jsStrLtL_append_of_lt as bs cs ds (by omega) h

theorem string_data_append (s t : String) : (s ++ t).data = s.data ++ t.data := rfl

theorem string_mk_data (l : List Char) : (String.mk l).data = l := rfl

theorem nextIdForDay_data (yyyyMmDd : String) (t : UTCTime) (rand : String) :
    (nextIdForDay yyyyMmDd t rand).data =
      yyyyMmDd.data ++ '/' :: (pad 2 t.hour ++ (pad 2 t.minute ++ (pad 2 t.second ++
        '-' :: (pad 3 t.ms ++ rand.data)))) := by
  simp [nextIdForDay, string_data_append, string_mk_data, List.append_assoc]

theorem isoDate_data (t : UTCTime) :
    (isoDate t).data =
      pad 4 t.year ++ '-' :: (pad 2 t.month ++ '-' :: pad 2 t.day) := by
  simp [isoDate, string_data_append, string_mk_data, List.append_assoc]

end Gloss

namespace Gloss

/-- Claim C8: for chronologically ordered UTC instants, the derived key of
the earlier instant is lexicographically smaller than that of the later one,
regardless of the random disambiguator suffixes, because every numeric field
is fixed-width and zero-padded; hence sorting keys lexicographically sorts
entries chronologically. -/
theorem nextIdForDay_chronological (t1 t2 : UTCTime) (r1 r2 : String)
    (h : chronoLt t1 t2) :
    jsStrLt (nextIdForDay (isoDate t1) t1 r1) (nextIdForDay (isoDate t2) t2 r2) = true := by
  have p2 : (10 : Nat) ^ 2 = 100 := by norm_num
  have p3 : (10 : Nat) ^ 3 = 1000 := by norm_num
  have p4 : (10 : Nat) ^ 4 = 10000 := by norm_num
  unfold jsStrLt
  rw [nextIdForDay_data, nextIdForDay_data, isoDate_data, isoDate_data]
  simp only [List.append_assoc, List.cons_append]
  rcases h with hy | ⟨hy, hmo | ⟨hmo, hd | ⟨hd, hh | ⟨hh, hmi | ⟨hmi, hs | ⟨hs, hms⟩⟩⟩⟩⟩⟩
  · exact jsStrLtL_append_of_lt _ _ _ _
      (by rw [pad_length 4 t1.year (by omega) (by rw [p4]; exact t1.hYear),
        pad_length 4 t2.year (by omega) (by rw [p4]; exact t2.hYear)])
      (pad_lt_pad 4 t1.year t2.year (by omega) hy (by rw [p4]; exact t2.hYear))
  · rw [hy, jsStrLtL_append_right, jsStrLtL_cons_same]
    exact jsStrLtL_append_of_lt _ _ _ _
      (by rw [pad_length 2 t1.month (by omega) (by rw [p2]; exact t1.hMonth),
        pad_length 2 t2.month (by omega) (by rw [p2]; exact t2.hMonth)])
      (pad_lt_pad 2 t1.month t2.month (by omega) hmo (by rw [p2]; exact t2.hMonth))
  · rw [hy, hmo, jsStrLtL_append_right, jsStrLtL_cons_same, jsStrLtL_append_right,
      jsStrLtL_cons_same]
    exact jsStrLtL_append_of_lt _ _ _ _
      (by rw [pad_length 2 t1.day (by omega) (by rw [p2]; exact t1.hDay),
        pad_length 2 t2.day (by omega) (by rw [p2]; exact t2.hDay)])
      (pad_lt_pad 2 t1.day t2.day (by omega) hd (by rw [p2]; exact t2.hDay))
  · rw [hy, hmo, hd, jsStrLtL_append_right, jsStrLtL_cons_same, jsStrLtL_append_right,
      jsStrLtL_cons_same, jsStrLtL_append_right, jsStrLtL_cons_same]
    exact jsStrLtL_append_of_lt _ _ _ _
      (by rw [pad_length 2 t1.hour (by omega) (by rw [p2]; exact t1.hHour),
        pad_length 2 t2.hour (by omega) (by rw [p2]; exact t2.hHour)])
      (pad_lt_pad 2 t1.hour t2.hour (by omega) hh (by rw [p2]; exact t2.hHour))
  · rw [hy, hmo, hd, hh, jsStrLtL_append_right, jsStrLtL_cons_same, jsStrLtL_append_right,
      jsStrLtL_cons_same, jsStrLtL_append_right, jsStrLtL_cons_same, jsStrLtL_append_right]
    exact jsStrLtL_append_of_lt _ _ _ _
      (by rw [pad_length 2 t1.minute (by omega) (by rw [p2]; exact t1.hMinute),
        pad_length 2 t2.minute (by omega) (by rw [p2]; exact t2.hMinute)])
      (pad_lt_pad 2 t1.minute t2.minute (by omega) hmi (by rw [p2]; exact t2.hMinute))
  · rw [hy, hmo, hd, hh, hmi, jsStrLtL_append_right, jsStrLtL_cons_same,
      jsStrLtL_append_right, jsStrLtL_cons_same, jsStrLtL_append_right, jsStrLtL_cons_same,
      jsStrLtL_append_right, jsStrLtL_append_right]
    exact jsStrLtL_append_of_lt _ _ _ _
      (by rw [pad_length 2 t1.second (by omega) (by rw [p2]; exact t1.hSecond),
        pad_length 2 t2.second (by omega) (by rw [p2]; exact t2.hSecond)])
      (pad_lt_pad 2 t1.second t2.second (by omega) hs (by rw [p2]; exact t2.hSecond))
  · rw [hy, hmo, hd, hh, hmi, hs, jsStrLtL_append_right, jsStrLtL_cons_same,
      jsStrLtL_append_right, jsStrLtL_cons_same, jsStrLtL_append_right, jsStrLtL_cons_same,
      jsStrLtL_append_right, jsStrLtL_append_right, jsStrLtL_append_right,
      jsStrLtL_cons_same]
    exact jsStrLtL_append_of_lt _ _ _ _
      (by rw [pad_length 3 t1.ms (by omega) (by rw [p3]; exact t1.hMs),
        pad_length 3 t2.ms (by omega) (by rw [p3]; exact t2.hMs)])
      (pad_lt_pad 3 t1.ms t2.ms (by omega) hms (by rw [p3]; exact t2.hMs))

/-- Claim C8 witness: two instants one millisecond apart, with opposing
random suffixes. -/
theorem nextIdForDay_chronological_witness :
    chronoLt tA tB ∧
    jsStrLt (nextIdForDay (isoDate tA) tA "zzzz") (nextIdForDay (isoDate tB) tB "aaaa") =
      true :=
  ⟨by decide, nextIdForDay_chronological tA tB "zzzz" "aaaa" (by decide)⟩

end Gloss
